import Mathlib

/-!
Verification development for the jira2gitlab migration script.

The Python source (jira2gitlab.py) is shallowly embedded:
pure helpers become Lean functions, the stateful migration engine becomes
explicit state passing with an oracle describing the outcome of every remote
HTTP call, and code that can raise an uncaught exception returns `Option`
(`none` = the exception) or a result carrying an error component.
-/

set_option maxRecDepth 4096

namespace J2G

/-! ## JSON values

`dict_hash` (jira2gitlab.py lines 55-59) serializes a Python dictionary with
`json.dumps(dictionary, sort_keys=True)` and digests the result with md5.
We model JSON values as `JVal`; Python dicts become entry lists in insertion
order.  The md5 digest itself is the external `hashlib` primitive and is kept
as a function parameter `md5 : String → String` of the hash.
-/

inductive JVal : Type where
  | null : JVal
  | bool : Bool → JVal
  | num : Int → JVal
  | str : String → JVal
  | arr : List JVal → JVal
  | obj : List (String × JVal) → JVal



/-- The opening curly brace character. -/
def braceL : Char := '\x7b'

/-- The closing curly brace character. -/
def braceR : Char := '\x7d'

/-- Decimal digit character for `d < 10` (all other inputs map to `'0'`). -/
def digitChar : Nat → Char
  | 0 => '0' | 1 => '1' | 2 => '2' | 3 => '3' | 4 => '4'
  | 5 => '5' | 6 => '6' | 7 => '7' | 8 => '8' | 9 => '9'
  | _ => '0'

/-- Lower-case hexadecimal digit character for `d < 16`. -/
def hexChar : Nat → Char
  | 0 => '0' | 1 => '1' | 2 => '2' | 3 => '3' | 4 => '4'
  | 5 => '5' | 6 => '6' | 7 => '7' | 8 => '8' | 9 => '9'
  | 10 => 'a' | 11 => 'b' | 12 => 'c' | 13 => 'd' | 14 => 'e' | 15 => 'f'
  | _ => '0'

/-- The four hex digits of `n % 0x10000`, as in Python's `\uXXXX` escapes. -/
def hex4 (n : Nat) : List Char :=
  [hexChar (n / 4096 % 16), hexChar (n / 256 % 16), hexChar (n / 16 % 16), hexChar (n % 16)]

/-- Little-endian decimal digits of `n` (always nonempty). -/
def natRevDigits (n : Nat) : List Char :=
  if h : n < 10 then [digitChar n]
  else digitChar (n % 10) :: natRevDigits (n / 10)
decreasing_by exact Nat.div_lt_self (by omega) (by omega)

/-- Decimal digits of `n`, most significant first, as `str(int)` prints them. -/
def natDigits (n : Nat) : List Char := (natRevDigits n).reverse

/-- `str(i)` for a Python int. -/
def intChars : Int → List Char
  | Int.ofNat n => natDigits n
  | Int.negSucc m => '-' :: natDigits (m + 1)

/-- Python `json.dumps` escape of one character (default `ensure_ascii=True`):
`"` and `\` get a backslash, the common control characters use short escapes,
other chars below `0x20` and everything above `0x7e` become `\uXXXX`
(a surrogate pair for code points above `0xFFFF`). -/
def escChar (c : Char) : List Char :=
  if c = '"' then ['\\', '"']
  else if c = '\\' then ['\\', '\\']
  else if c = '\n' then ['\\', 'n']
  else if c = '\t' then ['\\', 't']
  else if c = '\r' then ['\\', 'r']
  else if c.toNat = 8 then ['\\', 'b']
  else if c.toNat = 12 then ['\\', 'f']
  else if c.toNat < 32 then '\\' :: 'u' :: hex4 c.toNat
  else if c.toNat < 127 then [c]
  else if c.toNat < 65536 then '\\' :: 'u' :: hex4 c.toNat
  else
    let v := c.toNat - 65536
    ('\\' :: 'u' :: hex4 (55296 + v / 1024)) ++ ('\\' :: 'u' :: hex4 (56320 + v % 1024))

/-- Escape a whole character list. -/
def escList : List Char → List Char
  | [] => []
  | c :: cs => escChar c ++ escList cs

/-- A JSON string literal: `"` + escaped body + `"`. -/
def escStr (s : String) : List Char := '"' :: (escList s.data ++ ['"'])

mutual
/-- `json.dumps` of a value with the default separators `", "` and `": "`.
Sorting of object keys (`sort_keys=True`) is applied beforehand by `canon`. -/
def dumpsV : JVal → List Char
  | .null => "null".data
  | .bool b => if b then "true".data else "false".data
  | .num i => intChars i
  | .str s => escStr s
  | .arr xs => '[' :: (dumpsArr xs ++ [']'])
  | .obj fs => braceL :: (dumpsObj fs ++ [braceR])

/-- Array elements joined with `", "`. -/
def dumpsArr : List JVal → List Char
  | [] => []
  | [x] => dumpsV x
  | x :: y :: xs => dumpsV x ++ ',' :: ' ' :: dumpsArr (y :: xs)

/-- Object entries `"key": value` joined with `", "`. -/
def dumpsObj : List (String × JVal) → List Char
  | [] => []
  | [(k, v)] => escStr k ++ ':' :: ' ' :: dumpsV v
  | (k, v) :: e :: fs => escStr k ++ ':' :: ' ' :: dumpsV v ++ ',' :: ' ' :: dumpsObj (e :: fs)
end

/-- Key order used by `sort_keys=True`: code-point lexicographic on the key.
(`sorted` in CPython is a different sorting algorithm, but on the
duplicate-free keys of a dict any sort produces the same key-sorted list.) -/
def keyLe (a b : String × JVal) : Prop := a.1 ≤ b.1

instance : DecidableRel keyLe := fun a b => inferInstanceAs (Decidable (a.1 ≤ b.1))

mutual
/-- Canonical form: recursively sort every object's entries by key, as
`json.dumps(·, sort_keys=True)` does while serializing. -/
def canon : JVal → JVal
  | .null => .null
  | .bool b => .bool b
  | .num i => .num i
  | .str s => .str s
  | .arr xs => .arr (canonArr xs)
  | .obj fs => .obj ((canonObj fs).insertionSort keyLe)

/-- `canon` mapped over array elements. -/
def canonArr : List JVal → List JVal
  | [] => []
  | x :: xs => canon x :: canonArr xs

/-- `canon` mapped over object entry values. -/
def canonObj : List (String × JVal) → List (String × JVal)
  | [] => []
  | (k, v) :: fs => (k, canon v) :: canonObj fs
end

/-- `json.dumps(v, sort_keys=True)` as a Lean string. -/
def pyDumps (v : JVal) : String := ⟨dumpsV (canon v)⟩

/-- `dict_hash` (lines 55-59): md5 hex digest of the key-sorted JSON dump.
The md5 digest is the external `hashlib` call, passed in as `md5`. -/
def dict_hash (md5 : String → String) (d : List (String × JVal)) : String :=
  md5 (pyDumps (.obj d))

/-- The two volatile Jira fields zeroed before hashing. -/
def unstableField (k : String) : Bool :=
  k = "lastViewed" || k = "customfield_10300"

/-- Zero the volatile entries of the `fields` sub-dictionary
(`jira_issue_remove_unstable_data`, lines 64-67): a volatile key that is
present is set to the empty string; an absent key stays absent. -/
def zeroUnstable : JVal → JVal
  | .obj gs => .obj (gs.map fun g => if unstableField g.1 then (g.1, .str "") else g)
  | v => v

/-- `jira_issue_remove_unstable_data` applied to a whole issue dictionary:
the in-place mutation of `issue["fields"]` becomes an update of the
`"fields"` entry. -/
def jira_issue_remove_unstable_data (issue : List (String × JVal)) : List (String × JVal) :=
  issue.map fun e => if e.1 = "fields" then (e.1, zeroUnstable e.2) else e

/-- The fingerprint the engine computes for an issue (lines 542-543):
volatile data removed, then `dict_hash`. -/
def issueFingerprint (md5 : String → String) (issue : List (String × JVal)) : String :=
  dict_hash md5 (jira_issue_remove_unstable_data issue)

/-! ### A parser for the serializer's output

To show that `dumpsV` is injective we give a parser and prove the round trip
`parseVal (dumpsV v ++ rest) = some (v, rest)`.  The parser exists solely for
this proof; it only needs to succeed on strings `dumpsV` produces. -/

/-- Value of one hex digit character, if it is one. -/
def hexVal (c : Char) : Option Nat :=
  if '0' ≤ c && c ≤ '9' then some (c.toNat - '0'.toNat)
  else if 'a' ≤ c && c ≤ 'f' then some (c.toNat - 'a'.toNat + 10)
  else none

/-- Read four hex digits as a number. -/
def readHex4 : List Char → Option (Nat × List Char)
  | c1 :: c2 :: c3 :: c4 :: rest => do
    let d1 ← hexVal c1
    let d2 ← hexVal c2
    let d3 ← hexVal c3
    let d4 ← hexVal c4
    some (d1 * 4096 + d2 * 256 + d3 * 16 + d4, rest)
  | _ => none

theorem readHex4_len : ∀ (cs : List Char) (n : Nat) (rest : List Char),
    readHex4 cs = some (n, rest) → cs.length = rest.length + 4 := by
  intro cs n rest h
  match cs with
  | [] => simp [readHex4] at h
  | [_] => simp [readHex4] at h
  | [_, _] => simp [readHex4] at h
  | [_, _, _] => simp [readHex4] at h
  | c1 :: c2 :: c3 :: c4 :: r =>
    simp only [readHex4, Option.bind_eq_bind] at h
    cases hv1 : hexVal c1 <;> rw [hv1] at h <;> try simp at h
    cases hv2 : hexVal c2 <;> rw [hv2] at h <;> try simp at h
    cases hv3 : hexVal c3 <;> rw [hv3] at h <;> try simp at h
    cases hv4 : hexVal c4 <;> rw [hv4] at h <;> try simp at h
    simp [h.2]

/-- Decode a string body up to (and consuming) the closing quote. -/
def parseStrChars : List Char → Option (List Char × List Char)
  | [] => none
  | '"' :: rest => some ([], rest)
  | '\\' :: e :: rest =>
    match e with
    | '"' => (parseStrChars rest).map fun r => ('"' :: r.1, r.2)
    | '\\' => (parseStrChars rest).map fun r => ('\\' :: r.1, r.2)
    | 'n' => (parseStrChars rest).map fun r => ('\n' :: r.1, r.2)
    | 't' => (parseStrChars rest).map fun r => ('\t' :: r.1, r.2)
    | 'r' => (parseStrChars rest).map fun r => ('\r' :: r.1, r.2)
    | 'b' => (parseStrChars rest).map fun r => (Char.ofNat 8 :: r.1, r.2)
    | 'f' => (parseStrChars rest).map fun r => (Char.ofNat 12 :: r.1, r.2)
    | 'u' =>
      match h1 : readHex4 rest with
      | none => none
      | some (h, rest1) =>
        if 55296 ≤ h ∧ h < 56320 then
          match rest1 with
          | '\\' :: 'u' :: rest2 =>
            match h2 : readHex4 rest2 with
            | none => none
            | some (l, rest3) =>
              (parseStrChars rest3).map fun r =>
                (Char.ofNat (65536 + (h - 55296) * 1024 + (l - 56320)) :: r.1, r.2)
          | _ => none
        else
          (parseStrChars rest1).map fun r => (Char.ofNat h :: r.1, r.2)
    | _ => none
  | c :: rest => (parseStrChars rest).map fun r => (c :: r.1, r.2)
termination_by cs => cs.length
decreasing_by
  all_goals simp
  all_goals try omega
  · have e1 := readHex4_len _ _ _ h1
    have e2 := readHex4_len _ _ _ h2
    simp at e1 e2
    omega
  · have e1 := readHex4_len _ _ _ h1
    omega

/-- Greedily read a decimal digit prefix. -/
def readDigits : List Char → List Char × List Char
  | [] => ([], [])
  | c :: rest =>
    if c.isDigit then
      let (ds, r) := readDigits rest
      (c :: ds, r)
    else ([], c :: rest)

/-- Numeric value of a digit list. -/
def digitsVal (ds : List Char) : Nat :=
  ds.foldl (fun acc c => acc * 10 + (c.toNat - 48)) 0

/-- Parse a decimal number (used after an optional minus sign). -/
def parseNat : List Char → Option (Nat × List Char)
  | cs =>
    match readDigits cs with
    | ([], _) => none
    | (ds, rest) => some (digitsVal ds, rest)

mutual
/-- Parse one JSON value in the exact format `dumpsV` emits. -/
def parseVal : Nat → List Char → Option (JVal × List Char)
  | 0, _ => none
  | _ + 1, 'n' :: 'u' :: 'l' :: 'l' :: rest => some (.null, rest)
  | _ + 1, 't' :: 'r' :: 'u' :: 'e' :: rest => some (.bool true, rest)
  | _ + 1, 'f' :: 'a' :: 'l' :: 's' :: 'e' :: rest => some (.bool false, rest)
  | _ + 1, '"' :: rest =>
    (parseStrChars rest).map fun r => (.str ⟨r.1⟩, r.2)
  | _ + 1, '-' :: rest =>
    (parseNat rest).map fun r => (.num (-(r.1 : Int)), r.2)
  | fuel + 1, '[' :: rest =>
    match rest with
    | ']' :: r => some (.arr [], r)
    | _ => (parseItems fuel rest).map fun r => (.arr r.1, r.2)
  | fuel + 1, '\x7b' :: rest =>
    match rest with
    | '\x7d' :: r => some (.obj [], r)
    | _ => (parseFields fuel rest).map fun r => (.obj r.1, r.2)
  | _ + 1, c :: rest =>
    if c.isDigit then
      (parseNat (c :: rest)).map fun r => (.num (r.1 : Int), r.2)
    else none
  | _ + 1, [] => none

/-- Parse `", "`-separated array elements up to (and consuming) `']'`. -/
def parseItems : Nat → List Char → Option (List JVal × List Char)
  | 0, _ => none
  | fuel + 1, cs => do
    let (x, r) ← parseVal fuel cs
    match r with
    | ',' :: ' ' :: r2 => (parseItems fuel r2).map fun q => (x :: q.1, q.2)
    | ']' :: r2 => some ([x], r2)
    | _ => none

/-- Parse `", "`-separated object entries up to (and consuming) the brace. -/
def parseFields : Nat → List Char → Option (List (String × JVal) × List Char)
  | 0, _ => none
  | fuel + 1, cs =>
    match cs with
    | '"' :: cs1 => do
      let (ks, r) ← parseStrChars cs1
      match r with
      | ':' :: ' ' :: r2 => do
        let (v, r3) ← parseVal fuel r2
        match r3 with
        | ',' :: ' ' :: r4 => (parseFields fuel r4).map fun q => ((⟨ks⟩, v) :: q.1, q.2)
        | '\x7d' :: r4 => some ([(⟨ks⟩, v)], r4)
        | _ => none
      | _ => none
    | _ => none
end

/-! ### Round trip: the parser recovers every serialized value

These lemmas establish that `dumpsV` is injective, which is what the
fingerprint-sensitivity claim needs. -/

theorem digitChar_isDigit (d : Nat) (h : d < 10) : (digitChar d).isDigit = true := by
  interval_cases d <;> rfl

theorem digitChar_toNat (d : Nat) (h : d < 10) : (digitChar d).toNat = 48 + d := by
  interval_cases d <;> rfl

theorem natRevDigits_digits (n : Nat) : ∀ c ∈ natRevDigits n, c.isDigit := by
  induction n using Nat.strong_induction_on with
  | _ n ih =>
    rw [natRevDigits]
    split
    · intro c hc
      simp only [List.mem_singleton] at hc
      subst hc
      exact digitChar_isDigit n (by omega)
    · intro c hc
      rcases List.mem_cons.mp hc with h | h
      · subst h; exact digitChar_isDigit _ (Nat.mod_lt _ (by omega))
      · exact ih (n / 10) (Nat.div_lt_self (by omega) (by omega)) c h

theorem natDigits_digits (n : Nat) : ∀ c ∈ natDigits n, c.isDigit := fun c hc =>
  natRevDigits_digits n c (List.mem_reverse.mp hc)

theorem natRevDigits_ne_nil (n : Nat) : natRevDigits n ≠ [] := by
  rw [natRevDigits]; split <;> simp

theorem natDigits_ne_nil (n : Nat) : natDigits n ≠ [] := by
  simp [natDigits, natRevDigits_ne_nil]

/-- The continuation after a serialized number does not begin with a digit,
so greedy digit reading stops exactly at the number's end. -/
def headNotDigit : List Char → Prop
  | [] => True
  | c :: _ => c.isDigit = false

theorem readDigits_append (ds rest : List Char) (hds : ∀ c ∈ ds, c.isDigit)
    (hr : headNotDigit rest) : readDigits (ds ++ rest) = (ds, rest) := by
  induction ds with
  | nil =>
    cases rest with
    | nil => rfl
    | cons c r =>
      simp only [headNotDigit] at hr
      simp [readDigits, hr]
  | cons c ds ih =>
    have hc := hds c (by simp)
    simp [readDigits, hc, ih (fun x hx => hds x (by simp [hx]))]

theorem digitsVal_append_last (l : List Char) (c : Char) :
    digitsVal (l ++ [c]) = digitsVal l * 10 + (c.toNat - 48) := by
  simp [digitsVal, List.foldl_append]

theorem natDigits_step (n : Nat) (h : ¬ n < 10) :
    natDigits n = natDigits (n / 10) ++ [digitChar (n % 10)] := by
  rw [natDigits, natRevDigits]
  simp [h, natDigits]

theorem digitsVal_natDigits (n : Nat) : digitsVal (natDigits n) = n := by
  induction n using Nat.strong_induction_on with
  | _ n ih =>
    by_cases h : n < 10
    · rw [natDigits, natRevDigits]
      simp [h, digitsVal, digitChar_toNat n h]
    · rw [natDigits_step n h, digitsVal_append_last,
        ih (n / 10) (Nat.div_lt_self (by omega) (by omega)),
        digitChar_toNat _ (Nat.mod_lt _ (by omega))]
      omega

theorem parseNat_natDigits (n : Nat) (rest : List Char) (hr : headNotDigit rest) :
    parseNat (natDigits n ++ rest) = some (n, rest) := by
  have h1 := readDigits_append (natDigits n) rest (natDigits_digits n) hr
  rw [parseNat, h1]
  rcases hd : natDigits n with _ | ⟨c, ds⟩
  · exact absurd hd (natDigits_ne_nil n)
  · simp [← hd, digitsVal_natDigits n]

theorem hexVal_hexChar (d : Nat) (h : d < 16) : hexVal (hexChar d) = some d := by
  interval_cases d <;> rfl

theorem readHex4_hex4 (n : Nat) (h : n < 65536) (rest : List Char) :
    readHex4 (hex4 n ++ rest) = some (n, rest) := by
  have h1 : n / 4096 % 16 < 16 := Nat.mod_lt _ (by omega)
  have h2 : n / 256 % 16 < 16 := Nat.mod_lt _ (by omega)
  have h3 : n / 16 % 16 < 16 := Nat.mod_lt _ (by omega)
  have h4 : n % 16 < 16 := Nat.mod_lt _ (by omega)
  simp [hex4, readHex4, hexVal_hexChar _ h1, hexVal_hexChar _ h2,
    hexVal_hexChar _ h3, hexVal_hexChar _ h4]
  omega

theorem char_not_surrogate (c : Char) : c.toNat < 55296 ∨ 57343 < c.toNat := by
  have hv := c.valid
  rcases hv with h | ⟨h1, _⟩
  · left
    exact h
  · right
    exact h1

theorem parseStrChars_u (h : Nat) (rest : List Char) (hh : h < 65536)
    (hns : ¬ (55296 ≤ h ∧ h < 56320)) :
    parseStrChars ('\\' :: 'u' :: (hex4 h ++ rest)) =
      (parseStrChars rest).map fun r => (Char.ofNat h :: r.1, r.2) := by
  rw [parseStrChars.eq_def]
  simp only [hex4, List.cons_append, List.nil_append]
  have hr := readHex4_hex4 h hh rest
  simp only [hex4, List.cons_append, List.nil_append] at hr
  split
  · rename_i heq
    rw [hr] at heq
    simp at heq
  · rename_i h1 rest1 heq
    rw [hr] at heq
    injection heq with heq2
    injection heq2 with e1 e2
    subst e1
    subst e2
    rw [if_neg hns]

theorem parseStrChars_pair (h l : Nat) (rest : List Char) (hh : h < 65536) (hl : l < 65536)
    (hs : 55296 ≤ h ∧ h < 56320) :
    parseStrChars ('\\' :: 'u' :: (hex4 h ++ ('\\' :: 'u' :: (hex4 l ++ rest)))) =
      (parseStrChars rest).map fun r =>
        (Char.ofNat (65536 + (h - 55296) * 1024 + (l - 56320)) :: r.1, r.2) := by
  rw [parseStrChars.eq_def]
  simp only [hex4, List.cons_append, List.nil_append]
  have hr := readHex4_hex4 h hh ('\\' :: 'u' :: (hex4 l ++ rest))
  simp only [hex4, List.cons_append, List.nil_append] at hr
  split
  · rename_i heq
    rw [hr] at heq
    simp at heq
  · rename_i h1 rest1 heq
    rw [hr] at heq
    injection heq with heq2
    injection heq2 with e1 e2
    subst e1
    subst e2
    rw [if_pos hs]
    have hr2 := readHex4_hex4 l hl rest
    simp only [hex4, List.cons_append, List.nil_append] at hr2
    split
    · rename_i rest1 hA rest2 hB hlist hheq
      have hre2 : rest2 = J2G.hexChar (l / 4096 % 16) :: J2G.hexChar (l / 256 % 16) ::
          J2G.hexChar (l / 16 % 16) :: J2G.hexChar (l % 16) :: rest := by
        injection hlist with _ h'
        injection h' with _ h''
        exact h''.symm
      subst hre2
      split
      · rename_i hEqN
        rw [hr2] at hEqN
        simp at hEqN
      · rename_i l1 rest3 hEqS
        have hinj := hEqS.symm.trans hr2
        simp only [Option.some.injEq, Prod.mk.injEq] at hinj
        rw [hinj.1, hinj.2]
    · rename_i rest1 hEq1 hno
      have hre : rest1 = '\\' :: 'u' :: (hexChar (l / 4096 % 16) :: hexChar (l / 256 % 16) ::
          hexChar (l / 16 % 16) :: hexChar (l % 16) :: rest) := by
        have hh2 := hEq1.symm.trans heq
        simp at hh2
        exact hh2
      subst hre
      exact ((hno _ hEq1 rfl) (proof_irrel_heq _ _)).elim

theorem parseStrChars_escList (cs : List Char) (rest : List Char) :
    parseStrChars (escList cs ++ '"' :: rest) = some (cs, rest) := by
  induction cs with
  | nil => simp [escList, parseStrChars]
  | cons c cs ih =>
    rw [escList, List.append_assoc]
    by_cases h1 : c = '"'
    · subst h1; simp [escChar, parseStrChars, ih]
    · by_cases h2 : c = '\\'
      · subst h2; simp [escChar, parseStrChars, ih]
      · by_cases h3 : c = '\n'
        · subst h3; simp [escChar, parseStrChars, ih]
        · by_cases h4 : c = '\t'
          · subst h4; simp [escChar, parseStrChars, ih]
          · by_cases h5 : c = '\r'
            · subst h5; simp [escChar, parseStrChars, ih]
            · by_cases h6 : c.toNat = 8
              · have hc : Char.ofNat 8 = c := by rw [← h6, Char.ofNat_toNat]
                simp [escChar, h1, h2, h3, h4, h5, h6, parseStrChars, ih]
                exact hc
              · by_cases h7 : c.toNat = 12
                · have hc : Char.ofNat 12 = c := by rw [← h7, Char.ofNat_toNat]
                  simp [escChar, h1, h2, h3, h4, h5, h6, h7, parseStrChars, ih]
                  exact hc
                · by_cases h8 : c.toNat < 32
                  · have hns : ¬ (55296 ≤ c.toNat ∧ c.toNat < 56320) := by omega
                    simp only [escChar, if_neg h1, if_neg h2, if_neg h3, if_neg h4,
                      if_neg h5, if_neg h6, if_neg h7, if_pos h8, List.cons_append]
                    rw [parseStrChars_u c.toNat _ (by omega) hns, ih]
                    simp [Char.ofNat_toNat]
                  · by_cases h9 : c.toNat < 127
                    · simp only [escChar, if_neg h1, if_neg h2, if_neg h3, if_neg h4,
                        if_neg h5, if_neg h6, if_neg h7, if_neg h8, if_pos h9,
                        List.singleton_append]
                      rw [parseStrChars.eq_def]
                      split
                      · simp_all
                      · simp_all
                      · simp_all
                      · rename_i heq
                        rw [List.cons.injEq] at heq
                        rw [← heq.2, ih]
                        simp [heq.1]
                    · by_cases h10 : c.toNat < 65536
                      · have hsur := char_not_surrogate c
                        have hns : ¬ (55296 ≤ c.toNat ∧ c.toNat < 56320) := by omega
                        simp only [escChar, if_neg h1, if_neg h2, if_neg h3, if_neg h4,
                          if_neg h5, if_neg h6, if_neg h7, if_neg h8, if_neg h9,
                          if_pos h10, List.cons_append]
                        rw [parseStrChars_u c.toNat _ (by omega) hns, ih]
                        simp [Char.ofNat_toNat]
                      · have hmax : c.toNat < 1114112 := by
                          have hv := c.valid
                          have he : c.toNat = c.val.toNat := rfl
                          rcases hv with h | ⟨_, h⟩ <;> omega
                        have hdiv : (c.toNat - 65536) / 1024 < 1024 := by
                          apply Nat.div_lt_of_lt_mul
                          omega
                        have hmod : (c.toNat - 65536) % 1024 < 1024 :=
                          Nat.mod_lt _ (by omega)
                        have hs : 55296 ≤ 55296 + (c.toNat - 65536) / 1024 ∧
                            55296 + (c.toNat - 65536) / 1024 < 56320 := ⟨by omega, by omega⟩
                        have hcomb : 65536 + (55296 + (c.toNat - 65536) / 1024 - 55296) * 1024 +
                            (56320 + (c.toNat - 65536) % 1024 - 56320) = c.toNat := by
                          have hd := Nat.div_add_mod (c.toNat - 65536) 1024
                          omega
                        simp only [escChar, if_neg h1, if_neg h2, if_neg h3, if_neg h4,
                          if_neg h5, if_neg h6, if_neg h7, if_neg h8, if_neg h9, if_neg h10,
                          List.cons_append, List.append_assoc, List.nil_append]
                        rw [parseStrChars_pair _ _ _ (by omega) (by omega) hs, ih]
                        have harg : 65536 + (c.toNat - 65536) / 1024 * 1024 +
                            (c.toNat - 65536) % 1024 = c.toNat := by
                          have hd := Nat.div_add_mod (c.toNat - 65536) 1024
                          omega
                        simp [hcomb, harg, Char.ofNat_toNat]

theorem sizeOf_jval_pos (v : JVal) : 0 < sizeOf v := by cases v <;> simp

/-- First character of a serialized value: never a closing bracket, closing
brace, or comma (so joins and container delimiters parse unambiguously). -/
theorem dumpsV_head (v : JVal) :
    ∃ c cs, dumpsV v = c :: cs ∧ c ≠ ']' ∧ c ≠ '\x7d' := by
  cases v with
  | null => exact ⟨'n', _, rfl, by decide, by decide⟩
  | bool b => cases b

              · exact ⟨'f', _, rfl, by decide, by decide⟩
              · exact ⟨'t', _, rfl, by decide, by decide⟩
  | num i =>
    cases i with
    | ofNat n =>
      rcases hd : natDigits n with _ | ⟨c, ds⟩
      · exact absurd hd (natDigits_ne_nil n)
      · have hcd : c.isDigit := natDigits_digits n c (by rw [hd]; simp)
        refine ⟨c, ds, by simp [dumpsV, intChars, hd], ?_, ?_⟩
        · rintro rfl; simp at hcd
        · rintro rfl; simp at hcd
    | negSucc m => exact ⟨'-', _, rfl, by decide, by decide⟩
  | str s => exact ⟨'"', _, rfl, by decide, by decide⟩
  | arr xs => exact ⟨'[', _, rfl, by decide, by decide⟩
  | obj fs => exact ⟨braceL, _, rfl, by decide, by decide⟩

theorem dumpsArr_head (x : JVal) (t : List JVal) :
    ∃ c cs, dumpsArr (x :: t) = c :: cs ∧ c ≠ ']' ∧ c ≠ '\x7d' := by
  obtain ⟨c, cs, hc, h1, h2⟩ := dumpsV_head x
  cases t with
  | nil => exact ⟨c, cs, by simp [dumpsArr, hc], h1, h2⟩
  | cons y t' => exact ⟨c, cs ++ ',' :: ' ' :: dumpsArr (y :: t'), by simp [dumpsArr, hc], h1, h2⟩

theorem dumpsObj_head (k : String) (v : JVal) (t : List (String × JVal)) :
    ∃ cs, dumpsObj ((k, v) :: t) = '"' :: cs := by
  cases t with
  | nil =>
    exact ⟨(escList k.data ++ ['"']) ++ ':' :: ' ' :: dumpsV v, by simp [dumpsObj, escStr]⟩
  | cons e t' =>
    exact ⟨(escList k.data ++ ['"']) ++ ':' :: ' ' :: (dumpsV v ++ ',' :: ' ' :: dumpsObj (e :: t')),
      by simp [dumpsObj, escStr]⟩

theorem parseVal_null (fuel : Nat) (rest : List Char) :
    parseVal (fuel + 1) ('n' :: 'u' :: 'l' :: 'l' :: rest) = some (.null, rest) := rfl

theorem parseVal_true (fuel : Nat) (rest : List Char) :
    parseVal (fuel + 1) ('t' :: 'r' :: 'u' :: 'e' :: rest) = some (.bool true, rest) := rfl

theorem parseVal_false (fuel : Nat) (rest : List Char) :
    parseVal (fuel + 1) ('f' :: 'a' :: 'l' :: 's' :: 'e' :: rest) = some (.bool false, rest) := rfl

theorem parseVal_quote (fuel : Nat) (cs : List Char) :
    parseVal (fuel + 1) ('"' :: cs) =
      (parseStrChars cs).map fun r => (.str ⟨r.1⟩, r.2) := rfl

theorem parseVal_minus (fuel : Nat) (cs : List Char) :
    parseVal (fuel + 1) ('-' :: cs) =
      (parseNat cs).map fun r => (.num (-(r.1 : Int)), r.2) := rfl

theorem parseVal_lbracket (fuel : Nat) (cs : List Char) :
    parseVal (fuel + 1) ('[' :: cs) =
      (match cs with
        | ']' :: r => some (.arr [], r)
        | _ => (parseItems fuel cs).map fun r => (.arr r.1, r.2)) := rfl

theorem parseVal_lbrace (fuel : Nat) (cs : List Char) :
    parseVal (fuel + 1) ('\x7b' :: cs) =
      (match cs with
        | '\x7d' :: r => some (.obj [], r)
        | _ => (parseFields fuel cs).map fun r => (.obj r.1, r.2)) := rfl

theorem char_digit_toNat (c : Char) (hc : c.isDigit = true) :
    48 ≤ c.toNat ∧ c.toNat ≤ 57 := by
  simp [Char.isDigit, Char.le_def] at hc
  exact ⟨hc.1, hc.2⟩

theorem parseVal_digit (fuel : Nat) (c : Char) (cs : List Char) (hc : c.isDigit = true) :
    parseVal (fuel + 1) (c :: cs) =
      (parseNat (c :: cs)).map fun r => (.num (r.1 : Int), r.2) := by
  obtain ⟨hl, hh⟩ := char_digit_toNat c hc
  have hcc := Char.ofNat_toNat c
  interval_cases hn : c.toNat <;> rw [← hcc] <;> rfl

theorem parseItems_succ (fuel : Nat) (cs : List Char) :
    parseItems (fuel + 1) cs =
      (do
        let (x, r) ← parseVal fuel cs
        match r with
        | ',' :: ' ' :: r2 => (parseItems fuel r2).map fun q => (x :: q.1, q.2)
        | ']' :: r2 => some ([x], r2)
        | _ => none) := rfl

theorem parseFields_quote (fuel : Nat) (cs1 : List Char) :
    parseFields (fuel + 1) ('"' :: cs1) =
      (do
        let (ks, r) ← parseStrChars cs1
        match r with
        | ':' :: ' ' :: r2 => do
          let (v, r3) ← parseVal fuel r2
          match r3 with
          | ',' :: ' ' :: r4 => (parseFields fuel r4).map fun q => ((⟨ks⟩, v) :: q.1, q.2)
          | '\x7d' :: r4 => some ([(⟨ks⟩, v)], r4)
          | _ => none
        | _ => none) := rfl

theorem parse_dumps (fuel : Nat) :
    (∀ v (rest : List Char), sizeOf v ≤ fuel → headNotDigit rest →
       parseVal fuel (dumpsV v ++ rest) = some (v, rest)) ∧
    (∀ (xs : List JVal) (rest : List Char), xs ≠ [] → sizeOf xs ≤ fuel →
       parseItems fuel (dumpsArr xs ++ ']' :: rest) = some (xs, rest)) ∧
    (∀ (fs : List (String × JVal)) (rest : List Char), fs ≠ [] → sizeOf fs ≤ fuel →
       parseFields fuel (dumpsObj fs ++ '\x7d' :: rest) = some (fs, rest)) := by
  induction fuel with
  | zero =>
    refine ⟨?_, ?_, ?_⟩
    · intro v rest hv _
      exact absurd hv (by have := sizeOf_jval_pos v; omega)
    · intro xs rest hne hs
      exact absurd hs (by cases xs <;> simp_all)
    · intro fs rest hne hs
      exact absurd hs (by cases fs <;> simp_all)
  | succ fuel ih =>
    obtain ⟨ihP, ihQ, ihR⟩ := ih
    refine ⟨?_, ?_, ?_⟩
    · intro v rest hv hr
      cases v with
      | null => rw [show dumpsV .null = ['n', 'u', 'l', 'l'] from rfl]; exact parseVal_null fuel rest
      | bool b =>
        cases b
        · rw [show dumpsV (.bool false) = ['f', 'a', 'l', 's', 'e'] from rfl]
          exact parseVal_false fuel rest
        · rw [show dumpsV (.bool true) = ['t', 'r', 'u', 'e'] from rfl]
          exact parseVal_true fuel rest
      | num i =>
        cases i with
        | ofNat n =>
          rcases hd : natDigits n with _ | ⟨c, ds⟩
          · exact absurd hd (natDigits_ne_nil n)
          · have hcd : c.isDigit := natDigits_digits n c (by rw [hd]; simp)
            have hpn := parseNat_natDigits n rest hr
            rw [hd] at hpn
            rw [show dumpsV (.num (Int.ofNat n)) = natDigits n from rfl, hd,
              List.cons_append, parseVal_digit fuel c _ hcd, ← List.cons_append, hpn]
            rfl
        | negSucc m =>
          have hpn := parseNat_natDigits (m + 1) rest hr
          rw [show dumpsV (.num (Int.negSucc m)) = '-' :: natDigits (m + 1) from rfl,
            List.cons_append, parseVal_minus, hpn]
          simp
          rw [Int.negSucc_eq]
          ring
      | str s =>
        rw [show dumpsV (.str s) = '"' :: (escList s.data ++ ['"']) from rfl]
        rw [List.cons_append, List.append_assoc, List.singleton_append, parseVal_quote,
          parseStrChars_escList]
        rfl
      | arr xs =>
        cases xs with
        | nil =>
          rw [show dumpsV (.arr []) = ['[', ']'] from by simp [dumpsV, dumpsArr]]
          rw [List.cons_append, List.cons_append, List.nil_append, parseVal_lbracket]
          rfl
        | cons x t =>
          obtain ⟨c, cs', hc, hc1, hc2⟩ := dumpsArr_head x t
          have hsz : sizeOf (x :: t) ≤ fuel := by
            simp at hv ⊢
            omega
          have hq := ihQ (x :: t) rest (by simp) hsz
          rw [show dumpsV (.arr (x :: t)) = '[' :: (dumpsArr (x :: t) ++ [']']) from by
            simp [dumpsV]]
          rw [List.cons_append, List.append_assoc, List.singleton_append, parseVal_lbracket]
          rw [hc, List.cons_append]
          split
          · rename_i heq
            rw [List.cons.injEq] at heq
            exact absurd heq.1 hc1
          · rw [← List.cons_append, ← hc, hq]
            rfl
      | obj fs =>
        cases fs with
        | nil =>
          rw [show dumpsV (.obj []) = [braceL, braceR] from by simp [dumpsV, dumpsObj]]
          rw [show braceL = '\x7b' from rfl, show braceR = '\x7d' from rfl]
          rw [List.cons_append, List.cons_append, List.nil_append, parseVal_lbrace]
          rfl
        | cons f t =>
          obtain ⟨k, v⟩ := f
          obtain ⟨cs', hc⟩ := dumpsObj_head k v t
          have hsz : sizeOf ((k, v) :: t) ≤ fuel := by
            simp at hv ⊢
            omega
          have hq := ihR ((k, v) :: t) rest (by simp) hsz
          rw [show dumpsV (.obj ((k, v) :: t)) =
              braceL :: (dumpsObj ((k, v) :: t) ++ [braceR]) from by simp [dumpsV]]
          rw [show braceL = '\x7b' from rfl, show braceR = '\x7d' from rfl]
          rw [List.cons_append, List.append_assoc, List.singleton_append, parseVal_lbrace]
          rw [hc, List.cons_append]
          split
          · rename_i heq
            rw [List.cons.injEq] at heq
            exact absurd heq.1 (by decide)
          · rw [← List.cons_append, ← hc, hq]
            rfl
    · intro xs rest hne hs
      cases xs with
      | nil => exact absurd rfl hne
      | cons x t =>
        cases t with
        | nil =>
          have hsx : sizeOf x ≤ fuel := by
            simp at hs
            omega
          have hp := ihP x (']' :: rest) hsx (by exact rfl)
          rw [show dumpsArr [x] = dumpsV x from rfl, parseItems_succ, hp]
          rfl
        | cons y t' =>
          have hsx : sizeOf x ≤ fuel := by
            have h1 := sizeOf_jval_pos y
            simp at hs
            omega
          have hst : sizeOf (y :: t') ≤ fuel := by
            have h1 := sizeOf_jval_pos x
            simp at hs ⊢
            omega
          have hp := ihP x (',' :: ' ' :: (dumpsArr (y :: t') ++ ']' :: rest)) hsx (by exact rfl)
          have hq := ihQ (y :: t') rest (by simp) hst
          rw [show dumpsArr (x :: y :: t') = dumpsV x ++ ',' :: ' ' :: dumpsArr (y :: t') from
            rfl]
          rw [List.append_assoc, List.cons_append, List.cons_append, parseItems_succ, hp]
          simp only [Option.bind_eq_bind, Option.some_bind]
          rw [hq]
          rfl
    · intro fs rest hne hs
      cases fs with
      | nil => exact absurd rfl hne
      | cons f t =>
        obtain ⟨k, v⟩ := f
        have hvp := sizeOf_jval_pos v
        cases t with
        | nil =>
          have hsv : sizeOf v ≤ fuel := by
            simp at hs
            omega
          have hp := ihP v ('\x7d' :: rest) hsv (by exact rfl)
          rw [show dumpsObj [(k, v)] = escStr k ++ ':' :: ' ' :: dumpsV v from rfl]
          rw [show escStr k = '"' :: (escList k.data ++ ['"']) from rfl]
          rw [List.cons_append, List.cons_append, parseFields_quote]
          rw [List.append_assoc, List.append_assoc, List.singleton_append,
            parseStrChars_escList]
          simp only [Option.bind_eq_bind, Option.some_bind, List.cons_append]
          rw [hp]
          rfl
        | cons e t' =>
          have h1 : 0 < sizeOf e := by
            obtain ⟨k2, v2⟩ := e
            have := sizeOf_jval_pos v2
            simp
          have hsv : sizeOf v ≤ fuel := by
            simp at hs
            omega
          have hst : sizeOf (e :: t') ≤ fuel := by
            simp at hs ⊢
            omega
          have hp := ihP v (',' :: ' ' :: (dumpsObj (e :: t') ++ '\x7d' :: rest)) hsv
            (by exact rfl)
          have hq := ihR (e :: t') rest (by simp) hst
          rw [show dumpsObj ((k, v) :: e :: t') =
              escStr k ++ ':' :: ' ' :: (dumpsV v ++ ',' :: ' ' :: dumpsObj (e :: t')) from by
            simp only [dumpsObj]
            simp [List.append_assoc]]
          rw [show escStr k = '"' :: (escList k.data ++ ['"']) from rfl]
          rw [List.cons_append, List.cons_append, parseFields_quote]
          rw [List.append_assoc, List.append_assoc, List.singleton_append,
            parseStrChars_escList]
          simp only [Option.bind_eq_bind, Option.some_bind, List.cons_append,
            List.append_assoc]
          rw [hp]
          simp only [Option.some_bind]
          rw [hq]
          rfl

/-- The serializer is injective: two values with the same `json.dumps` image
are equal.  (Proved via the parser round trip.) -/
theorem dumpsV_inj {v w : JVal} (h : dumpsV v = dumpsV w) : v = w := by
  have hv := (parse_dumps (max (sizeOf v) (sizeOf w))).1 v [] (le_max_left _ _) trivial
  have hw := (parse_dumps (max (sizeOf v) (sizeOf w))).1 w [] (le_max_right _ _) trivial
  rw [List.append_nil] at hv hw
  rw [h] at hv
  have := hw.symm.trans hv
  simp only [Option.some.injEq, Prod.mk.injEq] at this
  exact this.1.symm

/-- `json.dumps(·, sort_keys=True)` output determines the canonical form. -/
theorem pyDumps_inj {v w : JVal} (h : pyDumps v = pyDumps w) : canon v = canon w := by
  have h2 : dumpsV (canon v) = dumpsV (canon w) := congrArg String.data h
  exact dumpsV_inj h2

/-! ### Key-sorting: order of dictionary entries does not matter -/

theorem canonObj_eq_map (fs : List (String × JVal)) :
    canonObj fs = fs.map fun e => (e.1, canon e.2) := by
  induction fs with
  | nil => simp [canonObj]
  | cons e t ih =>
    obtain ⟨k, v⟩ := e
    simp [canonObj, ih]

instance : IsTotal (String × JVal) keyLe :=
  ⟨fun a b => le_total a.1 b.1⟩

instance : IsTrans (String × JVal) keyLe :=
  ⟨fun _ _ _ h1 h2 => le_trans h1 h2⟩

/-- Two permuted entry lists with duplicate-free keys have the same key-sorted
form: this is why `sort_keys=True` makes the dump independent of dict order. -/
theorem sortKeys_eq_of_perm (l1 l2 : List (String × JVal)) (hperm : l1.Perm l2)
    (hnd : (l1.map Prod.fst).Nodup) :
    l1.insertionSort keyLe = l2.insertionSort keyLe := by
  have h1 : (l1.insertionSort keyLe).Perm (l2.insertionSort keyLe) :=
    ((List.perm_insertionSort keyLe l1).trans hperm).trans
      (List.perm_insertionSort keyLe l2).symm
  have hs1 := List.sorted_insertionSort keyLe l1
  have hs2 := List.sorted_insertionSort keyLe l2
  refine List.Perm.eq_of_sorted ?_ hs1 hs2 h1
  intro a b ha hb hab hba
  have ha1 : a ∈ l1 := (List.perm_insertionSort keyLe l1).subset ha
  have hb1 : b ∈ l1 := hperm.symm.subset ((List.perm_insertionSort keyLe l2).subset hb)
  exact List.inj_on_of_nodup_map hnd ha1 hb1 (le_antisymm hab hba)

theorem canon_obj_perm (fs gs : List (String × JVal)) (hperm : fs.Perm gs)
    (hnd : (fs.map Prod.fst).Nodup) : canon (.obj fs) = canon (.obj gs) := by
  simp only [canon]
  congr 1
  apply sortKeys_eq_of_perm
  · rw [canonObj_eq_map, canonObj_eq_map]
    exact hperm.map _
  · rw [canonObj_eq_map, List.map_map]
    exact hnd

/-- Conversely, equal canonical objects have permuted canonical entries. -/
theorem canon_obj_eq_perm {fs gs : List (String × JVal)}
    (h : canon (.obj fs) = canon (.obj gs)) : (canonObj fs).Perm (canonObj gs) := by
  simp only [canon, JVal.obj.injEq] at h
  have p1 := (List.perm_insertionSort keyLe (canonObj fs)).symm
  rw [h] at p1
  exact p1.trans (List.perm_insertionSort keyLe (canonObj gs))

/-- In a permutation-equal pair of entry lists with duplicate-free keys, the
value at any key is determined. -/
theorem perm_entry_eq {l1 l2 : List (String × JVal)} (h : l1.Perm l2)
    (hnd : (l1.map Prod.fst).Nodup) {k : String} {x y : JVal}
    (hx : (k, x) ∈ l1) (hy : (k, y) ∈ l2) : x = y := by
  have hy1 : (k, y) ∈ l1 := h.symm.subset hy
  have := List.inj_on_of_nodup_map hnd hx hy1 rfl
  exact (Prod.mk.injEq _ _ _ _ ▸ this).2

/-! ### Fingerprint determinism support -/

/-- Overwrite the value at key `k` inside a JSON object (used to state
"two issues differing only in a volatile field"). -/
def setFieldVal (v : JVal) (k : String) (x : JVal) : JVal :=
  match v with
  | .obj gs => .obj (gs.map fun g => if g.1 = k then (g.1, x) else g)
  | w => w

/-- Overwrite `issue["fields"][k]` with `x`. -/
def setIssueField (issue : List (String × JVal)) (k : String) (x : JVal) :
    List (String × JVal) :=
  issue.map fun e => if e.1 = "fields" then (e.1, setFieldVal e.2 k x) else e

/-- Entry-wise action of `jira_issue_remove_unstable_data`. -/
def removeEntry (e : String × JVal) : String × JVal :=
  if e.1 = "fields" then (e.1, zeroUnstable e.2) else e

theorem remove_eq_map (issue : List (String × JVal)) :
    jira_issue_remove_unstable_data issue = issue.map removeEntry := rfl

/-- Entry-wise action of `zeroUnstable`. -/
def zeroEntry (g : String × JVal) : String × JVal :=
  if unstableField g.1 then (g.1, .str "") else g

theorem zeroUnstable_obj (gs : List (String × JVal)) :
    zeroUnstable (.obj gs) = .obj (gs.map zeroEntry) := rfl

theorem map_fst_removeEntry (l : List (String × JVal)) :
    (l.map removeEntry).map Prod.fst = l.map Prod.fst := by
  induction l with
  | nil => rfl
  | cons e t ih =>
    simp only [List.map_cons, ih, removeEntry]
    split <;> simp_all

theorem map_fst_zeroEntry (l : List (String × JVal)) :
    (l.map zeroEntry).map Prod.fst = l.map Prod.fst := by
  induction l with
  | nil => rfl
  | cons e t ih =>
    simp only [List.map_cons, ih, zeroEntry]
    split <;> simp_all

theorem map_fst_canonEntry (l : List (String × JVal)) :
    ((l.map fun e => (e.1, canon e.2)).map Prod.fst) = l.map Prod.fst := by
  simp [List.map_map]

theorem zero_setFieldVal (v : JVal) (k : String) (x y : JVal)
    (hk : unstableField k = true) :
    zeroUnstable (setFieldVal v k x) = zeroUnstable (setFieldVal v k y) := by
  cases v with
  | obj gs =>
    simp only [setFieldVal, zeroUnstable_obj, List.map_map]
    congr 1
    induction gs with
    | nil => rfl
    | cons g t ih =>
      simp only [List.map_cons, ih]
      congr 1
      simp only [Function.comp_apply]
      by_cases hg : g.1 = k
      · simp [hg, zeroEntry, hk]
      · simp [hg]
  | null => rfl
  | bool b => rfl
  | num i => rfl
  | str s => rfl
  | arr xs => rfl
theorem fingerprint_of_canon_eq (md5 : String → String) (a b : List (String × JVal))
    (h : canon (.obj (jira_issue_remove_unstable_data a)) =
         canon (.obj (jira_issue_remove_unstable_data b))) :
    issueFingerprint md5 a = issueFingerprint md5 b := by
  simp only [issueFingerprint, dict_hash, pyDumps]
  rw [h]

theorem fingerprint_volatile_irrelevant (md5 : String → String)
    (issue : List (String × JVal)) (k : String) (x y : JVal)
    (hk : unstableField k = true) :
    issueFingerprint md5 (setIssueField issue k x) =
    issueFingerprint md5 (setIssueField issue k y) := by
  apply fingerprint_of_canon_eq
  congr 1
  rw [remove_eq_map, remove_eq_map]
  simp only [setIssueField, List.map_map]
  congr 1
  apply List.map_congr_left
  intro e _
  simp only [Function.comp_apply, removeEntry]
  by_cases he : e.1 = "fields"
  · simp [he, zero_setFieldVal e.2 k x y hk]
  · simp [he]

theorem fingerprint_top_perm (md5 : String → String) (a b : List (String × JVal))
    (hperm : a.Perm b) (hnd : (a.map Prod.fst).Nodup) :
    issueFingerprint md5 a = issueFingerprint md5 b := by
  apply fingerprint_of_canon_eq
  apply canon_obj_perm
  · rw [remove_eq_map, remove_eq_map]
    exact hperm.map _
  · rw [remove_eq_map, map_fst_removeEntry]
    exact hnd

theorem fingerprint_fields_perm (md5 : String → String)
    (t1 t2 fs gs : List (String × JVal)) (hperm : fs.Perm gs)
    (hnd : (fs.map Prod.fst).Nodup) :
    issueFingerprint md5 (t1 ++ ("fields", .obj fs) :: t2) =
    issueFingerprint md5 (t1 ++ ("fields", .obj gs) :: t2) := by
  apply fingerprint_of_canon_eq
  rw [remove_eq_map, remove_eq_map]
  simp only [List.map_append, List.map_cons]
  have hmid : removeEntry ("fields", JVal.obj fs) = ("fields", .obj (fs.map zeroEntry)) := rfl
  have hmid2 : removeEntry ("fields", JVal.obj gs) = ("fields", .obj (gs.map zeroEntry)) := rfl
  rw [hmid, hmid2]
  have hinner : canon (.obj (fs.map zeroEntry)) = canon (.obj (gs.map zeroEntry)) := by
    apply canon_obj_perm
    · exact hperm.map _
    · rw [map_fst_zeroEntry]
      exact hnd
  simp only [canon, JVal.obj.injEq]
  rw [canonObj_eq_map, canonObj_eq_map]
  simp only [List.map_append, List.map_cons]
  rw [hinner]
theorem fingerprint_changes (md5 : String → String) (hinj : Function.Injective md5)
    (t1 t2 pre post : List (String × JVal)) (k : String) (va vb : JVal)
    (hk : unstableField k = false)
    (hne : canon va ≠ canon vb)
    (hnd1 : ((t1 ++ ("fields", JVal.obj (pre ++ (k, va) :: post)) :: t2).map Prod.fst).Nodup)
    (hnd2 : ((pre ++ (k, va) :: post).map Prod.fst).Nodup) :
    issueFingerprint md5 (t1 ++ ("fields", .obj (pre ++ (k, va) :: post)) :: t2) ≠
    issueFingerprint md5 (t1 ++ ("fields", .obj (pre ++ (k, vb) :: post)) :: t2) := by
  intro heq
  simp only [issueFingerprint, dict_hash] at heq
  have hcanon := pyDumps_inj (hinj heq)
  rw [remove_eq_map, remove_eq_map] at hcanon
  simp only [List.map_append, List.map_cons] at hcanon
  have hmidA : removeEntry ("fields", JVal.obj (pre ++ (k, va) :: post)) =
      ("fields", .obj (pre.map zeroEntry ++ (k, va) :: post.map zeroEntry)) := by
    simp [removeEntry, zeroUnstable_obj, zeroEntry, hk]
  have hmidB : removeEntry ("fields", JVal.obj (pre ++ (k, vb) :: post)) =
      ("fields", .obj (pre.map zeroEntry ++ (k, vb) :: post.map zeroEntry)) := by
    simp [removeEntry, zeroUnstable_obj, zeroEntry, hk]
  rw [hmidA, hmidB] at hcanon
  have hpermO := canon_obj_eq_perm hcanon
  rw [canonObj_eq_map, canonObj_eq_map] at hpermO
  simp only [List.map_append, List.map_cons] at hpermO
  have hndO : (((t1.map removeEntry).map (fun e => (e.1, canon e.2)) ++
      ("fields", canon (.obj (pre.map zeroEntry ++ (k, va) :: post.map zeroEntry))) ::
      (t2.map removeEntry).map (fun e => (e.1, canon e.2))).map Prod.fst).Nodup := by
    simp only [List.map_append, List.map_cons, List.map_map]
    have e1 : ∀ l : List (String × JVal),
        l.map (Prod.fst ∘ ((fun e => (e.1, canon e.2)) ∘ removeEntry)) = l.map Prod.fst := by
      intro l
      apply List.map_congr_left
      intro e _
      simp only [Function.comp_apply, removeEntry]
      split <;> rfl
    rw [e1, e1]
    simpa using hnd1
  have hmemA : ("fields", canon (.obj (pre.map zeroEntry ++ (k, va) :: post.map zeroEntry))) ∈
      ((t1.map removeEntry).map (fun e => (e.1, canon e.2)) ++
        ("fields", canon (.obj (pre.map zeroEntry ++ (k, va) :: post.map zeroEntry))) ::
        (t2.map removeEntry).map (fun e => (e.1, canon e.2))) :=
    List.mem_append_right _ (List.mem_cons_self _ _)
  have hmemB : ("fields", canon (.obj (pre.map zeroEntry ++ (k, vb) :: post.map zeroEntry))) ∈
      ((t1.map removeEntry).map (fun e => (e.1, canon e.2)) ++
        ("fields", canon (.obj (pre.map zeroEntry ++ (k, vb) :: post.map zeroEntry))) ::
        (t2.map removeEntry).map (fun e => (e.1, canon e.2))) :=
    List.mem_append_right _ (List.mem_cons_self _ _)
  have hfe : canon (.obj (pre.map zeroEntry ++ (k, va) :: post.map zeroEntry)) =
      canon (.obj (pre.map zeroEntry ++ (k, vb) :: post.map zeroEntry)) :=
    perm_entry_eq hpermO hndO hmemA hmemB
  have hpermI := canon_obj_eq_perm hfe
  rw [canonObj_eq_map, canonObj_eq_map] at hpermI
  simp only [List.map_append, List.map_cons] at hpermI
  have hndI : (((pre.map zeroEntry).map (fun e => (e.1, canon e.2)) ++
      (k, canon va) :: (post.map zeroEntry).map (fun e => (e.1, canon e.2))).map
        Prod.fst).Nodup := by
    simp only [List.map_append, List.map_cons, List.map_map]
    have e1 : ∀ l : List (String × JVal),
        l.map (Prod.fst ∘ ((fun e => (e.1, canon e.2)) ∘ zeroEntry)) = l.map Prod.fst := by
      intro l
      apply List.map_congr_left
      intro e _
      simp only [Function.comp_apply, zeroEntry]
      split <;> rfl
    rw [e1, e1]
    simpa using hnd2
  have hmemIA : (k, canon va) ∈
      ((pre.map zeroEntry).map (fun e => (e.1, canon e.2)) ++
        (k, canon va) :: (post.map zeroEntry).map (fun e => (e.1, canon e.2))) :=
    List.mem_append_right _ (List.mem_cons_self _ _)
  have hmemIB : (k, canon vb) ∈
      ((pre.map zeroEntry).map (fun e => (e.1, canon e.2)) ++
        (k, canon vb) :: (post.map zeroEntry).map (fun e => (e.1, canon e.2))) :=
    List.mem_append_right _ (List.mem_cons_self _ _)
  exact hne (perm_entry_eq hpermI hndI hmemIA hmemIB)
/-- **C3** Fingerprint determinism: issues whose normalized content (after the
volatile fields `lastViewed` and `customfield_10300` are zeroed) is identical
get the same `dict_hash` fingerprint — in particular issues differing only in
the values of those volatile fields, or only in dictionary key order at the
top level or inside `fields`; and changing the value of any non-excluded
field changes the md5 input, hence (md5 being injective on the relevant
inputs) the fingerprint.  `md5` is quantified, so the statement covers the
actual digest. -/
theorem C3_fingerprint_determinism (md5 : String → String) :
    (∀ a b : List (String × JVal),
       canon (.obj (jira_issue_remove_unstable_data a)) =
         canon (.obj (jira_issue_remove_unstable_data b)) →
       issueFingerprint md5 a = issueFingerprint md5 b) ∧
    (∀ (issue : List (String × JVal)) (k : String) (x y : JVal),
       unstableField k = true →
       issueFingerprint md5 (setIssueField issue k x) =
         issueFingerprint md5 (setIssueField issue k y)) ∧
    (∀ a b : List (String × JVal), a.Perm b → (a.map Prod.fst).Nodup →
       issueFingerprint md5 a = issueFingerprint md5 b) ∧
    (∀ t1 t2 fs gs : List (String × JVal), fs.Perm gs → (fs.map Prod.fst).Nodup →
       issueFingerprint md5 (t1 ++ ("fields", .obj fs) :: t2) =
         issueFingerprint md5 (t1 ++ ("fields", .obj gs) :: t2)) ∧
    (Function.Injective md5 →
       ∀ (t1 t2 pre post : List (String × JVal)) (k : String) (va vb : JVal),
       unstableField k = false →
       canon va ≠ canon vb →
       ((t1 ++ ("fields", JVal.obj (pre ++ (k, va) :: post)) :: t2).map Prod.fst).Nodup →
       ((pre ++ (k, va) :: post).map Prod.fst).Nodup →
       issueFingerprint md5 (t1 ++ ("fields", .obj (pre ++ (k, va) :: post)) :: t2) ≠
         issueFingerprint md5 (t1 ++ ("fields", .obj (pre ++ (k, vb) :: post)) :: t2)) := by
  refine ⟨fingerprint_of_canon_eq md5, fingerprint_volatile_irrelevant md5,
    fingerprint_top_perm md5, fingerprint_fields_perm md5, ?_⟩
  intro hinj t1 t2 pre post k va vb hk hne hnd1 hnd2
  exact fingerprint_changes md5 hinj t1 t2 pre post k va vb hk hne hnd1 hnd2

/-- Witness for C3 at concrete inputs: every hypothesis is discharged on
explicit issue dictionaries (`md5 := id`, which is injective). -/
theorem C3_fingerprint_determinism_witness :
    (issueFingerprint id [("fields", JVal.null)] =
       issueFingerprint id [("fields", JVal.null)]) ∧
    (issueFingerprint id
        (setIssueField [("fields", .obj [("lastViewed", JVal.str "t1")])]
          "lastViewed" (JVal.str "a")) =
       issueFingerprint id
        (setIssueField [("fields", .obj [("lastViewed", JVal.str "t1")])]
          "lastViewed" (JVal.str "b"))) ∧
    (issueFingerprint id [("key", JVal.null), ("fields", JVal.null)] =
       issueFingerprint id [("fields", JVal.null), ("key", JVal.null)]) ∧
    (issueFingerprint id [("fields", .obj [("b", JVal.null), ("a", JVal.null)])] =
       issueFingerprint id [("fields", .obj [("a", JVal.null), ("b", JVal.null)])]) ∧
    (issueFingerprint id [("fields", .obj [("summary", JVal.str "x")])] ≠
       issueFingerprint id [("fields", .obj [("summary", JVal.str "y")])]) := by
  have h := C3_fingerprint_determinism id
  refine ⟨h.1 _ _ rfl, h.2.1 _ "lastViewed" _ _ (by decide), ?_, ?_, ?_⟩
  · exact h.2.2.1 _ _ (List.Perm.swap _ _ _) (by decide)
  · exact h.2.2.2.1 [] [] _ _ (List.Perm.swap _ _ _) (by decide)
  · exact h.2.2.2.2 (fun _ _ hxy => hxy) [] [] [] [] "summary" _ _ (by decide)
      (by simp [canon]) (by decide) (by decide)

/-! ## Table repair (`jira_table_to_markdown`, lines 71-135)

Lines of text are modeled as `List Char` (a faithful view of Python `str` for
these functions, which never touch encodings).  Python list mutation plus
`filter(None, lines)` becomes a recursion producing the kept lines directly;
an uncaught `IndexError` is `none`. -/

/-- `text.splitlines()` for newline-separated text (the only terminator that
occurs in the texts these functions process). -/
def splitOnNl : List Char → List (List Char)
  | [] => [[]]
  | '\n' :: rest => [] :: splitOnNl rest
  | c :: rest =>
    match splitOnNl rest with
    | t :: ts => (c :: t) :: ts
    | [] => [[c]]

/-- Python `str.splitlines`: empty text gives no lines, and a trailing
newline does not open a final empty line. -/
def pySplitlines (cs : List Char) : List (List Char) :=
  if cs.isEmpty then []
  else
    let l := splitOnNl cs
    if l.getLast? = some [] then l.dropLast else l

/-- `lines[i] and lines[i][0] == "|"`. -/
def startsPipe : List Char → Bool
  | [] => false
  | c :: _ => c = '|'

/-- `lines[i][-1] == "|"` (and `lines[i][-1:] == "|"`, which agrees on the
empty string). -/
def endsPipe (l : List Char) : Bool :=
  match l.getLast? with
  | some c => c = '|'
  | none => false

/-- `lines[i][:2] == "||"`. -/
def startsDoublePipe : List Char → Bool
  | c1 :: c2 :: _ => c1 = '|' && c2 = '|'
  | _ => false

/-- `lines[i][-2:] == "||"`. -/
def endsDoublePipe (l : List Char) : Bool :=
  startsDoublePipe l.reverse

/-- The inner `while` of lines 81-83: absorb following physical lines into
the current row (joined with `<br>`) until the row ends with `|` or the
input is exhausted. -/
def absorbRow (cur : List Char) : List (List Char) → List Char × List (List Char)
  | [] => (cur, [])
  | x :: xs =>
    if endsPipe cur then (cur, x :: xs)
    else absorbRow (cur ++ '<' :: 'b' :: 'r' :: '>' :: x) xs

/-- First pass (lines 78-95): re-concatenate mistakenly broken rows.  The
result is the list of surviving lines (`None` entries already removed);
`none` models the early `return text` taken when the end of the input is
reached while processing a `|`-row and force-repair is off.  `fuel` bounds
the recursion and is passed `lines.length` (each step consumes at least one
line, so this fuel is never exhausted). -/
def joinRows : Nat → Bool → List (List Char) → Option (List (List Char))
  | _, _, [] => some []
  | 0, _, _ :: _ => none
  | fuel + 1, force, l :: rest =>
    if startsPipe l then
      match absorbRow l rest with
      | (cur, rest2) =>
        if rest2.isEmpty && !force then none
        else
          match joinRows fuel force rest2 with
          | none => none
          | some tail => some (cur :: tail)
    else
      match joinRows fuel force rest with
      | none => none
      | some tail => some (l :: tail)

/-- The `pp` counter of lines 104-110: number of (not necessarily adjacent)
pipe pairs in the line. -/
def pipePairs (l : List Char) : Nat :=
  (l.foldl (fun st c =>
    if c = '|' then (if st.2 = 1 then (st.1 + 1, 0) else (st.1, st.2 + 1)) else st)
    ((0 : Nat), (0 : Nat))).1

/-- `re.sub(r"\|\|", r"|", line)`: replace non-overlapping `||` left to
right. -/
def replacePairs : List Char → List Char
  | '|' :: '|' :: rest => '|' :: replacePairs rest
  | c :: rest => c :: replacePairs rest
  | [] => []

/-- One `| --- ` separator cell. -/
def sepCell : List Char := '|' :: ' ' :: '-' :: '-' :: '-' :: ' ' :: []

/-- `"| --- " * n`. -/
def sepCells : Nat → List Char
  | 0 => []
  | n + 1 => sepCell ++ sepCells n

/-- `lines[i][:2] == "||" and lines[i][-2:] == "||"` (the `lines[i] and`
truthiness test is subsumed: the empty line fails `[:2] == "||"`). -/
def isHeader (l : List Char) : Bool :=
  startsDoublePipe l && endsDoublePipe l

/-- Lines 111-112: single-delimit the header and append the synthesized
separator row (`pp - 1` divider cells). -/
def convertHeader (l : List Char) : List Char :=
  replacePairs l ++ '\n' :: (sepCells (pipePairs l - 1) ++ ['|'])

/-- The scan of lines 118-129, which iterates `i` over `range(lines_len)`
with the STALE pre-filter length: `lines[i]` raises `IndexError` (modeled as
`none`) when `i` is out of bounds of the filtered list.  On a hit it returns
the index and the line. -/
def scanBroken (lines : List (List Char)) : Nat → Nat → Option (Option (Nat × List Char))
  | _, 0 => some none
  | i, remaining + 1 =>
    match lines.get? i with
    | none => none
    | some l =>
      if startsPipe l && endsPipe l then some (some (i, l))
      else scanBroken lines (i + 1) remaining

/-- `"\n".join(lines)`. -/
def joinNl : List (List Char) → List Char
  | [] => []
  | [l] => l
  | l :: t => l ++ '\n' :: joinNl t

/-- `jira_table_to_markdown` (lines 71-135).  `force` is the configuration
constant `FORCE_REPAIR_JIRA_TABLES`; the result is `none` when the Python
function raises an uncaught exception. -/
def jira_table_to_markdown (force : Bool) (text : List Char) : Option (List Char) :=
  let lines0 := pySplitlines text
  let lines_len := lines0.length
  match joinRows lines0.length force lines0 with
  | none => some text
  | some kept =>
    let lines1 := kept.filter (fun l => !l.isEmpty)
    let found_table := lines1.any isHeader
    let lines2 := lines1.map fun l => if isHeader l then convertHeader l else l
    if force && !found_table then
      match scanBroken lines2 0 lines_len with
      | none => none
      | some none => some (joinNl lines2)
      | some (some (i, l)) =>
        let sep := '\n' :: (sepCells (pipePairs l * 2 - 1) ++ ['|'])
        some (joinNl (lines2.set i (replacePairs l ++ sep)))
    else some (joinNl lines2)

/-! ### Table repair: general behavior on well-shaped inputs -/

/-- A line that is not part of any table: nonempty and not starting with the
delimiter.  Such lines pass through every phase untouched. -/
def plainLine (l : List Char) : Prop := startsPipe l = false ∧ l ≠ []

/-- The line contains no newline character (it is one physical line). -/
def noNl (l : List Char) : Prop := '\n' ∉ l

theorem splitOnNl_noNl (l : List Char) (h : noNl l) : splitOnNl l = [l] := by
  induction l with
  | nil => rfl
  | cons c rest ih =>
    have hc : c ≠ '\n' := fun hc => h (hc ▸ List.mem_cons_self c rest)
    have hr : noNl rest := fun hm => h (List.mem_cons_of_mem c hm)
    rw [splitOnNl.eq_def]
    split
    · simp_all
    · simp_all
    · rename_i c2 rest2 hne heq
      rw [List.cons.injEq] at heq
      rw [← heq.2, ih hr]
      simp [heq.1]

theorem splitOnNl_append (l rest : List Char) (h : noNl l) :
    splitOnNl (l ++ '\n' :: rest) = l :: splitOnNl rest := by
  induction l with
  | nil => rfl
  | cons c t ih =>
    have hc : c ≠ '\n' := fun hc => h (hc ▸ List.mem_cons_self c t)
    have ht : noNl t := fun hm => h (List.mem_cons_of_mem c hm)
    rw [List.cons_append, splitOnNl.eq_def]
    split
    · simp_all
    · simp_all
    · rename_i c2 rest2 hne heq
      rw [List.cons.injEq] at heq
      rw [← heq.2, ih ht]
      simp [heq.1]

theorem joinNl_cons (l : List Char) (t : List (List Char)) (h : t ≠ []) :
    joinNl (l :: t) = l ++ '\n' :: joinNl t := by
  cases t with
  | nil => exact absurd rfl h
  | cons x xs => rfl

theorem splitOnNl_joinNl (ls : List (List Char)) (hne : ls ≠ [])
    (hnl : ∀ l ∈ ls, noNl l) : splitOnNl (joinNl ls) = ls := by
  induction ls with
  | nil => exact absurd rfl hne
  | cons l t ih =>
    cases t with
    | nil => exact splitOnNl_noNl l (hnl l (by simp))
    | cons x xs =>
      rw [joinNl_cons l (x :: xs) (by simp)]
      rw [splitOnNl_append l _ (hnl l (by simp))]
      rw [ih (by simp) (fun m hm => hnl m (List.mem_cons_of_mem l hm))]

theorem joinNl_ne_nil (ls : List (List Char)) (hne : ls ≠ [])
    (hlast : ls.getLast? ≠ some []) : joinNl ls ≠ [] := by
  cases ls with
  | nil => exact absurd rfl hne
  | cons l t =>
    cases t with
    | nil => simpa [joinNl] using hlast
    | cons x xs =>
      rw [joinNl_cons l (x :: xs) (by simp)]
      simp

theorem pySplitlines_joinNl (ls : List (List Char)) (hne : ls ≠ [])
    (hnl : ∀ l ∈ ls, noNl l) (hlast : ls.getLast? ≠ some []) :
    pySplitlines (joinNl ls) = ls := by
  rw [pySplitlines]
  rw [if_neg (by simpa [List.isEmpty_iff] using joinNl_ne_nil ls hne hlast)]
  simp only [splitOnNl_joinNl ls hne hnl]
  rw [if_neg hlast]
theorem endsPipe_append (a b : List Char) (hb : b ≠ []) :
    endsPipe (a ++ b) = endsPipe b := by
  rw [endsPipe, endsPipe, List.getLast?_append_of_ne_nil]
  exact hb

theorem absorbRow_of_endsPipe (cur : List Char) (rest : List (List Char))
    (h : endsPipe cur = true) : absorbRow cur rest = (cur, rest) := by
  cases rest with
  | nil => rfl
  | cons x xs => simp [absorbRow, h]


theorem startsPipe_iff (l : List Char) : startsPipe l = true ↔ ∃ t, l = '|' :: t := by
  cases l with
  | nil => simp [startsPipe]
  | cons c t => simp [startsPipe]

theorem startsDoublePipe_iff (l : List Char) :
    startsDoublePipe l = true ↔ ∃ t, l = '|' :: '|' :: t := by
  cases l with
  | nil => simp [startsDoublePipe]
  | cons c t =>
    cases t with
    | nil => simp [startsDoublePipe]
    | cons c2 t2 => simp [startsDoublePipe, and_assoc]

theorem endsPipe_iff (l : List Char) : endsPipe l = true ↔ l.getLast? = some '|' := by
  rw [endsPipe.eq_def]
  cases hl : l.getLast? with
  | none => simp
  | some c => simp

theorem startsPipe_of_startsDouble (l : List Char) (h : startsDoublePipe l = true) :
    startsPipe l = true := by
  rw [startsDoublePipe_iff] at h
  obtain ⟨t, rfl⟩ := h
  rw [startsPipe_iff]
  exact ⟨'|' :: t, rfl⟩

theorem endsPipe_of_endsDouble (l : List Char) (h : endsDoublePipe l = true) :
    endsPipe l = true := by
  rw [endsDoublePipe, startsDoublePipe_iff] at h
  obtain ⟨t, ht⟩ := h
  rw [endsPipe_iff, List.getLast?_eq_head?_reverse, ht]
  rfl

theorem isHeader_false_of_plain (l : List Char) (h : plainLine l) :
    isHeader l = false := by
  rw [isHeader]
  cases hs : startsDoublePipe l
  · rfl
  · have := startsPipe_of_startsDouble l hs
    rw [h.1] at this
    cases this

/-- The joined row `r1 ++ "<br>" ++ r2` does not start with `||` when `r1`
does not. -/
theorem startsDouble_join (r1 x : List Char) (h1 : startsPipe r1 = true)
    (h2 : startsDoublePipe r1 = false) :
    startsDoublePipe (r1 ++ '<' :: 'b' :: 'r' :: '>' :: x) = false := by
  rw [startsPipe_iff] at h1
  obtain ⟨t, rfl⟩ := h1
  cases t with
  | nil => rfl
  | cons c2 t2 =>
    cases hc : startsDoublePipe (('|' :: c2 :: t2) ++ '<' :: 'b' :: 'r' :: '>' :: x)
    · rfl
    · rw [startsDoublePipe_iff] at hc
      obtain ⟨u, hu⟩ := hc
      simp only [List.cons_append, List.cons.injEq] at hu
      have hc2 : c2 = '|' := hu.2.1
      subst hc2
      simp [startsDoublePipe] at h2

/-- Good rows survive the join pass untouched (force off): every `|`-row is
already closed and the final physical line is not a `|`-row. -/
theorem joinRows_good : ∀ (ls : List (List Char)) (fuel : Nat), ls.length ≤ fuel →
    (∀ l ∈ ls, startsPipe l = false ∨ endsPipe l = true) →
    (∀ h : ls ≠ [], startsPipe (ls.getLast h) = false) →
    joinRows fuel false ls = some ls := by
  intro ls
  induction ls with
  | nil => intro fuel _ _ _; cases fuel <;> rfl
  | cons l t ih =>
    intro fuel hfuel hrows hlast
    cases fuel with
    | zero => simp at hfuel
    | succ fuel =>
      have htail : ∀ h : t ≠ [], startsPipe (t.getLast h) = false := by
        intro h
        have hl := hlast (by simp)
        rwa [List.getLast_cons h] at hl
      rw [joinRows]
      cases hs : startsPipe l
      · simp only [Bool.false_eq_true, if_false]
        rw [ih fuel (by simpa using hfuel)
          (fun m hm => hrows m (List.mem_cons_of_mem l hm)) htail]
      · simp only [if_true]
        have hep : endsPipe l = true := by
          rcases hrows l (by simp) with h | h
          · rw [hs] at h; cases h
          · exact h
        rw [absorbRow_of_endsPipe l t hep]
        cases t with
        | nil =>
          have hl := hlast (by simp)
          simp only [List.getLast_singleton] at hl
          rw [hs] at hl
          cases hl
        | cons x xs =>
          simp only [List.isEmpty_cons, Bool.false_and, Bool.false_eq_true, if_false]
          rw [ih fuel (by simpa using hfuel)
            (fun m hm => hrows m (List.mem_cons_of_mem l hm)) htail]
theorem joinRows_append_plain : ∀ (p : List (List Char)) (rest : List (List Char))
    (fuel : Nat) (force : Bool), (∀ l ∈ p, startsPipe l = false) →
    joinRows (p.length + fuel) force (p ++ rest) =
      (joinRows fuel force rest).map (p ++ ·) := by
  intro p
  induction p with
  | nil =>
    intro rest fuel force _
    simp only [List.nil_append, List.length_nil, Nat.zero_add]
    cases h : joinRows fuel force rest <;> simp
  | cons l t ih =>
    intro rest fuel force hp
    have hl : startsPipe l = false := hp l (by simp)
    rw [List.cons_append, show (l :: t).length + fuel = (t.length + fuel) + 1 from by
      simp; omega]
    rw [joinRows, hl]
    simp only [Bool.false_eq_true, if_false]
    rw [ih rest fuel force (fun m hm => hp m (List.mem_cons_of_mem l hm))]
    cases h : joinRows fuel force rest <;> simp

/-- The join pass on a broken row followed by its closing line and further
plain lines: the two physical lines are joined with `<br>`. -/
theorem joinRows_broken (r1 r2 : List Char) (q : List (List Char)) (fuel : Nat)
    (h1 : startsPipe r1 = true) (h1e : endsPipe r1 = false) (h2 : endsPipe r2 = true)
    (hq : q ≠ []) (hfq : q.length + 1 ≤ fuel)
    (hqp : ∀ l ∈ q, startsPipe l = false ∧ l ≠ []) :
    joinRows (fuel + 1) false (r1 :: r2 :: q) =
      some ((r1 ++ '<' :: 'b' :: 'r' :: '>' :: r2) :: q) := by
  rw [joinRows, h1]
  simp only [if_true]
  have hr2ne : r2 ≠ [] := by
    intro h
    rw [h] at h2
    simp [endsPipe] at h2
  have habs : absorbRow r1 (r2 :: q) = (r1 ++ '<' :: 'b' :: 'r' :: '>' :: r2, q) := by
    rw [absorbRow, h1e]
    simp only [Bool.false_eq_true, if_false]
    apply absorbRow_of_endsPipe
    rw [endsPipe_append _ ('<' :: 'b' :: 'r' :: '>' :: r2) (by simp)]
    rw [show ('<' :: 'b' :: 'r' :: '>' :: r2) = ['<', 'b', 'r', '>'] ++ r2 from rfl]
    rw [endsPipe_append _ r2 hr2ne]
    exact h2
  rw [habs]
  rw [if_neg (by simp [List.isEmpty_iff, hq])]
  rw [joinRows_good q fuel (by omega) (fun m hm => Or.inl (hqp m hm).1)
    (fun h => (hqp _ (List.getLast_mem h)).1)]

/-- The join pass on a closed `|`-row (e.g. a `||`-header) followed by
plain lines. -/
theorem joinRows_closed (h0 : List Char) (q : List (List Char)) (fuel : Nat)
    (hs : startsPipe h0 = true) (he : endsPipe h0 = true)
    (hq : q ≠ []) (hfq : q.length ≤ fuel)
    (hqp : ∀ l ∈ q, startsPipe l = false ∧ l ≠ []) :
    joinRows (fuel + 1) false (h0 :: q) = some (h0 :: q) := by
  rw [joinRows, hs]
  simp only [if_true]
  rw [absorbRow_of_endsPipe h0 q he]
  rw [if_neg (by simp [List.isEmpty_iff, hq])]
  rw [joinRows_good q fuel hfq (fun m hm => Or.inl (hqp m hm).1)
    (fun h => (hqp _ (List.getLast_mem h)).1)]
theorem joinNl_splice : ∀ (p : List (List Char)) (a b : List Char) (q : List (List Char)),
    joinNl (p ++ (a ++ '\n' :: b) :: q) = joinNl (p ++ a :: b :: q) := by
  intro p
  induction p with
  | nil =>
    intro a b q
    cases q with
    | nil => simp [joinNl]
    | cons x xs =>
      simp only [List.nil_append]
      rw [joinNl_cons _ (x :: xs) (by simp), joinNl_cons a (b :: x :: xs) (by simp),
        joinNl_cons b (x :: xs) (by simp)]
      simp
  | cons l t ih =>
    intro a b q
    simp only [List.cons_append]
    rw [joinNl_cons l (t ++ (a ++ '\n' :: b) :: q) (by simp),
      joinNl_cons l (t ++ a :: b :: q) (by simp), ih]

theorem getLast?_ne_nil_of_all (ls : List (List Char)) (h : ∀ l ∈ ls, l ≠ [])
    (hne : ls ≠ []) : ls.getLast? ≠ some [] := by
  rw [List.getLast?_eq_getLast ls hne]
  intro hc
  injection hc with hc2
  exact h _ (List.getLast_mem hne) hc2

theorem filter_nonempty (ls : List (List Char)) (h : ∀ l ∈ ls, l ≠ []) :
    ls.filter (fun l => !l.isEmpty) = ls := by
  rw [List.filter_eq_self]
  intro a ha
  simpa [List.isEmpty_iff] using h a ha

theorem map_noHeader (ls : List (List Char)) (h : ∀ l ∈ ls, isHeader l = false) :
    (ls.map fun l => if isHeader l then convertHeader l else l) = ls := by
  rw [show ls = ls.map id from (List.map_id ls).symm]
  rw [List.map_map]
  apply List.map_congr_left
  intro a ha
  simp [h a (by simpa using ha)]
theorem jtm_wellformed (ls : List (List Char))
    (hnl : ∀ l ∈ ls, noNl l)
    (hrows : ∀ l ∈ ls, (startsPipe l = false ∧ l ≠ []) ∨
      (startsPipe l = true ∧ endsPipe l = true ∧ isHeader l = false))
    (hne : ls ≠ [])
    (hlast : ∀ h : ls ≠ [], startsPipe (ls.getLast h) = false) :
    jira_table_to_markdown false (joinNl ls) = some (joinNl ls) := by
  have hrne : ∀ l ∈ ls, l ≠ [] := by
    intro l hl
    rcases hrows l hl with h | h
    · exact h.2
    · intro hc
      rw [hc] at h
      simp [startsPipe] at h
  have hsplit := pySplitlines_joinNl ls hne hnl (getLast?_ne_nil_of_all ls hrne hne)
  rw [jira_table_to_markdown]
  simp only [hsplit]
  rw [joinRows_good ls ls.length le_rfl
    (fun l hl => (hrows l hl).imp (fun h => h.1) (fun h => h.2.1)) hlast]
  simp only
  rw [filter_nonempty ls hrne]
  rw [map_noHeader ls (fun l hl => by
    rcases hrows l hl with h | h
    · exact isHeader_false_of_plain l ⟨h.1, h.2⟩
    · exact h.2.2)]
  simp
theorem jtm_split_row (p q : List (List Char)) (r1 r2 : List Char)
    (hp : ∀ l ∈ p, plainLine l ∧ noNl l)
    (hq : ∀ l ∈ q, plainLine l ∧ noNl l)
    (hqne : q ≠ [])
    (h1 : startsPipe r1 = true) (h1d : startsDoublePipe r1 = false)
    (h1e : endsPipe r1 = false) (h2 : endsPipe r2 = true)
    (hn1 : noNl r1) (hn2 : noNl r2) :
    jira_table_to_markdown false (joinNl (p ++ r1 :: r2 :: q)) =
      some (joinNl (p ++ (r1 ++ '<' :: 'b' :: 'r' :: '>' :: r2) :: q)) := by
  have hr1ne : r1 ≠ [] := by
    intro hc
    rw [hc] at h1
    simp [startsPipe] at h1
  have hnl : ∀ l ∈ p ++ r1 :: r2 :: q, noNl l := by
    intro l hl
    rcases List.mem_append.mp hl with h | h
    · exact (hp l h).2
    · rcases h with _ | ⟨_, (_ | ⟨_, h⟩)⟩
      · exact hn1
      · exact hn2
      · exact (hq l h).2
  have hallne : ∀ l ∈ p ++ r1 :: r2 :: q, l ≠ [] := by
    intro l hl
    rcases List.mem_append.mp hl with h | h
    · exact (hp l h).1.2
    · rcases h with _ | ⟨_, (_ | ⟨_, h⟩)⟩
      · exact hr1ne
      · intro hc
        rw [hc] at h2
        simp [endsPipe] at h2
      · exact (hq l h).1.2
  have hlastq : (p ++ r1 :: r2 :: q).getLast? = q.getLast? := by
    rw [show p ++ r1 :: r2 :: q = (p ++ [r1, r2]) ++ q by simp]
    exact List.getLast?_append_of_ne_nil _ hqne
  have hlastqne : q.getLast? ≠ some [] :=
    getLast?_ne_nil_of_all q (fun l hl => (hq l hl).1.2) hqne
  have hsplit := pySplitlines_joinNl (p ++ r1 :: r2 :: q) (by simp) hnl
    (by rw [hlastq]; exact hlastqne)
  rw [jira_table_to_markdown]
  simp only [hsplit]
  have hlen : (p ++ r1 :: r2 :: q).length = p.length + (q.length + 1 + 1) := by
    simp
  rw [hlen]
  rw [joinRows_append_plain p (r1 :: r2 :: q) (q.length + 1 + 1) false
    (fun l hl => (hp l hl).1.1)]
  rw [joinRows_broken r1 r2 q (q.length + 1) h1 h1e h2 hqne (by omega)
    (fun l hl => ⟨(hq l hl).1.1, (hq l hl).1.2⟩)]
  simp only [Option.map_some']
  have hjoinedne : (r1 ++ '<' :: 'b' :: 'r' :: '>' :: r2) ≠ [] := by
    simp [hr1ne]
  have hfilter : (p ++ (r1 ++ '<' :: 'b' :: 'r' :: '>' :: r2) :: q).filter
      (fun l => !l.isEmpty) = p ++ (r1 ++ '<' :: 'b' :: 'r' :: '>' :: r2) :: q := by
    apply filter_nonempty
    intro l hl
    rcases List.mem_append.mp hl with h | h
    · exact (hp l h).1.2
    · rcases h with _ | ⟨_, h⟩
      · exact hjoinedne
      · exact (hq l h).1.2
  rw [hfilter]
  have hmap : ((p ++ (r1 ++ '<' :: 'b' :: 'r' :: '>' :: r2) :: q).map
      fun l => if isHeader l then convertHeader l else l) =
      p ++ (r1 ++ '<' :: 'b' :: 'r' :: '>' :: r2) :: q := by
    apply map_noHeader
    intro l hl
    rcases List.mem_append.mp hl with h | h
    · exact isHeader_false_of_plain l (hp l h).1
    · rcases h with _ | ⟨_, h⟩
      · rw [isHeader, startsDouble_join r1 r2 h1 h1d]
        rfl
      · exact isHeader_false_of_plain l (hq l h).1
  rw [hmap]
  simp

theorem jtm_header (p q : List (List Char)) (h0 : List Char)
    (hp : ∀ l ∈ p, plainLine l ∧ noNl l)
    (hq : ∀ l ∈ q, plainLine l ∧ noNl l)
    (hqne : q ≠ [])
    (hh : isHeader h0 = true) (hn0 : noNl h0) :
    jira_table_to_markdown false (joinNl (p ++ h0 :: q)) =
      some (joinNl (p ++ replacePairs h0 :: (sepCells (pipePairs h0 - 1) ++ ['|']) :: q)) := by
  have hh2 : startsDoublePipe h0 = true ∧ endsDoublePipe h0 = true := by
    simpa [isHeader, Bool.and_eq_true] using hh
  have hsd : startsDoublePipe h0 = true := hh2.1
  have hed : endsDoublePipe h0 = true := hh2.2
  have hs : startsPipe h0 = true := startsPipe_of_startsDouble h0 hsd
  have he : endsPipe h0 = true := endsPipe_of_endsDouble h0 hed
  have h0ne : h0 ≠ [] := by
    intro hc
    rw [hc] at hs
    simp [startsPipe] at hs
  have hnl : ∀ l ∈ p ++ h0 :: q, noNl l := by
    intro l hl
    rcases List.mem_append.mp hl with h | h
    · exact (hp l h).2
    · rcases h with _ | ⟨_, h⟩
      · exact hn0
      · exact (hq l h).2
  have hallne : ∀ l ∈ p ++ h0 :: q, l ≠ [] := by
    intro l hl
    rcases List.mem_append.mp hl with h | h
    · exact (hp l h).1.2
    · rcases h with _ | ⟨_, h⟩
      · exact h0ne
      · exact (hq l h).1.2
  have hlastq : (p ++ h0 :: q).getLast? = q.getLast? := by
    rw [show p ++ h0 :: q = (p ++ [h0]) ++ q by simp]
    exact List.getLast?_append_of_ne_nil _ hqne
  have hsplit := pySplitlines_joinNl (p ++ h0 :: q) (by simp) hnl
    (by
      rw [hlastq]
      exact getLast?_ne_nil_of_all q (fun l hl => (hq l hl).1.2) hqne)
  rw [jira_table_to_markdown]
  simp only [hsplit]
  have hlen : (p ++ h0 :: q).length = p.length + (q.length + 1) := by
    simp
  rw [hlen]
  rw [joinRows_append_plain p (h0 :: q) (q.length + 1) false (fun l hl => (hp l hl).1.1)]
  rw [joinRows_closed h0 q q.length hs he hqne le_rfl
    (fun l hl => ⟨(hq l hl).1.1, (hq l hl).1.2⟩)]
  simp only [Option.map_some']
  rw [filter_nonempty _ hallne]
  have hmap : ((p ++ h0 :: q).map fun l => if isHeader l then convertHeader l else l) =
      p ++ convertHeader h0 :: q := by
    rw [List.map_append, List.map_cons]
    rw [show (p.map fun l => if isHeader l then convertHeader l else l) = p from
      map_noHeader p (fun l hl => isHeader_false_of_plain l (hp l hl).1)]
    rw [show (q.map fun l => if isHeader l then convertHeader l else l) = q from
      map_noHeader q (fun l hl => isHeader_false_of_plain l (hq l hl).1)]
    rw [if_pos hh]
  rw [hmap]
  rw [show convertHeader h0 =
    replacePairs h0 ++ '\n' :: (sepCells (pipePairs h0 - 1) ++ ['|']) from rfl]
  rw [joinNl_splice]
  simp
/-! ### Claims C7 and C8 -/

/-- C7: the spec claims markup translation is total and never raises, under
both force-repair settings.  This is false: with force repair on, the scan of
lines 118-129 iterates over `range(lines_len)` where `lines_len` is the line
count taken BEFORE the join pass shortened the list, so `lines[i]` raises
`IndexError`.  Concretely, on the two-line input `"|a\nb"` the join pass
merges the lines into one, yet the scan still indexes position 1 (modeled as
`none` = an uncaught exception). -/
theorem C7_force_repair_index_error :
    jira_table_to_markdown true ('|' :: 'a' :: '\n' :: 'b' :: []) = none := by
  decide

/-- C8 (corrected): table repair round-trip under `force = false`, PROVIDED
the table does not extend to the last physical line (the claim as stated is
false there: the abort path of lines 85-88 returns the text unchanged, see
the counterexample).  Three parts: (1) a table whose rows each occupy one
physical line starting and ending with the delimiter (and are not
double-delimited headers) is left unchanged; (2) a row split across two
physical lines is rejoined into one row with an embedded `<br>` line break;
(3) a header row delimited by `||` at both ends is converted to single
delimiters followed by exactly one synthesized separator row containing
`pipePairs - 1` divider cells. -/
theorem C8_table_repair_roundtrip :
    (∀ ls : List (List Char), (∀ l ∈ ls, noNl l) →
      (∀ l ∈ ls, (startsPipe l = false ∧ l ≠ []) ∨
        (startsPipe l = true ∧ endsPipe l = true ∧ isHeader l = false)) →
      ls ≠ [] → (∀ h : ls ≠ [], startsPipe (ls.getLast h) = false) →
      jira_table_to_markdown false (joinNl ls) = some (joinNl ls)) ∧
    (∀ (p q : List (List Char)) (r1 r2 : List Char),
      (∀ l ∈ p, plainLine l ∧ noNl l) → (∀ l ∈ q, plainLine l ∧ noNl l) →
      q ≠ [] → startsPipe r1 = true → startsDoublePipe r1 = false →
      endsPipe r1 = false → endsPipe r2 = true → noNl r1 → noNl r2 →
      jira_table_to_markdown false (joinNl (p ++ r1 :: r2 :: q)) =
        some (joinNl (p ++ (r1 ++ '<' :: 'b' :: 'r' :: '>' :: r2) :: q))) ∧
    (∀ (p q : List (List Char)) (h0 : List Char),
      (∀ l ∈ p, plainLine l ∧ noNl l) → (∀ l ∈ q, plainLine l ∧ noNl l) →
      q ≠ [] → isHeader h0 = true → noNl h0 →
      jira_table_to_markdown false (joinNl (p ++ h0 :: q)) =
        some (joinNl (p ++ replacePairs h0 ::
          (sepCells (pipePairs h0 - 1) ++ ['|']) :: q))) :=
  ⟨fun ls a b c d => jtm_wellformed ls a b c d,
   fun p q r1 r2 a b c d e f g h i => jtm_split_row p q r1 r2 a b c d e f g h i,
   fun p q h0 a b c d e => jtm_header p q h0 a b c d e⟩

/-- Witness for C8 at concrete tables: an intact one-row table between plain
lines is unchanged; a row broken as `"|a" / "b|"` is rejoined with `<br>`;
the header `"||a||b||"` becomes `"|a|b|"` plus one separator row. -/
theorem C8_table_repair_roundtrip_witness :
    jira_table_to_markdown false (joinNl [['x'], ['|', 'a', '|'], ['y']]) =
      some (joinNl [['x'], ['|', 'a', '|'], ['y']]) ∧
    jira_table_to_markdown false (joinNl ([['x']] ++ ['|', 'a'] :: ['b', '|'] :: [['y']])) =
      some (joinNl ([['x']] ++ (['|', 'a'] ++ '<' :: 'b' :: 'r' :: '>' :: ['b', '|']) :: [['y']])) ∧
    jira_table_to_markdown false (joinNl ([['x']] ++ "||a||b||".data :: [['y']])) =
      some (joinNl ([['x']] ++ replacePairs "||a||b||".data ::
        (sepCells (pipePairs "||a||b||".data - 1) ++ ['|']) :: [['y']])) :=
  ⟨C8_table_repair_roundtrip.1 [['x'], ['|', 'a', '|'], ['y']]
      (by decide : ∀ l ∈ ([['x'], ['|', 'a', '|'], ['y']] : List (List Char)), '\n' ∉ l)
      (by decide) (by decide) (fun h => rfl),
   C8_table_repair_roundtrip.2.1 [['x']] [['y']] ['|', 'a'] ['b', '|']
      (by decide : ∀ l ∈ ([['x']] : List (List Char)),
        (startsPipe l = false ∧ l ≠ []) ∧ '\n' ∉ l)
      (by decide : ∀ l ∈ ([['y']] : List (List Char)),
        (startsPipe l = false ∧ l ≠ []) ∧ '\n' ∉ l)
      (by decide) (by decide) (by decide) (by decide) (by decide)
      (by decide : '\n' ∉ ['|', 'a']) (by decide : '\n' ∉ ['b', '|']),
   C8_table_repair_roundtrip.2.2 [['x']] [['y']] "||a||b||".data
      (by decide : ∀ l ∈ ([['x']] : List (List Char)),
        (startsPipe l = false ∧ l ≠ []) ∧ '\n' ∉ l)
      (by decide : ∀ l ∈ ([['y']] : List (List Char)),
        (startsPipe l = false ∧ l ≠ []) ∧ '\n' ∉ l)
      (by decide) (by decide) (by decide : '\n' ∉ "||a||b||".data)⟩

/-- Counterexample refuting C8 as stated ("for every input text"): the header
`"||a||b||"` standing alone touches the last physical line, so the abort
check of lines 85-88 returns the text unchanged and the claimed header
conversion does not happen. -/
theorem C8_table_repair_counterexample :
    isHeader "||a||b||".data = true ∧
    jira_table_to_markdown false "||a||b||".data = some "||a||b||".data ∧
    jira_table_to_markdown false "||a||b||".data ≠
      some (replacePairs "||a||b||".data ++ '\n' ::
        (sepCells (pipePairs "||a||b||".data - 1) ++ ['|'])) :=
  ⟨by decide, by decide, by decide⟩

/-! ## The migration engine

The issue-import loop of `migrate_project` (lines 542-888), the link
resolver `process_links` (lines 891-949), the privilege ledger
(`gitlab_user_admin` lines 307-330, `reset_user_privileges` lines 977-986,
`wrapup` lines 1010-1029), labels (lines 584-618) and milestones
(`get_milestone_id` lines 268-303, loop lines 634-637).  Remote HTTP calls
are oracle functions (`none`/`false` = the request raised); an uncaught
exception is an aborted run. -/

/-- The per-issue record stored in `IMPORT_STATUS["issue_mapping"]`
(lines 722-730): the Gitlab ids of the created issue. -/
structure GlRef where
  id : Nat
  project_id : Nat
  iid : Nat
  full_ref : String
deriving DecidableEq, Repr

/-- A Jira issue as the loop consumes it: its key and the JSON body the
fingerprint is computed from. -/
structure MIssue where
  key : String
  body : List (String × JVal)

/-- `IMPORT_STATUS["issue_mapping"]`: Jira key to (Gitlab ref, issue hash). -/
abbrev Mapping : Type := List (String × (GlRef × String))

/-- Observable target-side effects of the loop: issue creations, issue
deletions, and `store_import_status` snapshots. -/
inductive Ev where
  | created (key : String) (ref : GlRef)
  | deleted (ref : GlRef)
  | persisted (m : Mapping)
deriving DecidableEq

/-- Outcomes of the remote calls one issue triggers: the creation POST
(lines 694-709; `none` = `raise_for_status` threw) and the enrichment block
(lines 734-869; `false` = some enrichment request threw). -/
structure IssueOracle where
  create : Option GlRef
  enrich : Bool

/-- Python dict assignment `IMPORT_STATUS["issue_mapping"][key] = v`. -/
def upsert : Mapping → String → (GlRef × String) → Mapping
  | [], k, v => [(k, v)]
  | (k', v') :: rest, k, v =>
    if k' = k then (k, v) :: rest else (k', v') :: upsert rest k v

/-- One iteration of the import loop (lines 542-888) on issue `i` in mapping
state `m`: returns the new mapping, the emitted events, and whether the
iteration raised (aborting the whole run).
* Skip check (lines 548-552): an existing record with the same hash ends the
  iteration with no action.
* Changed issue (lines 553-568): the old Gitlab issue is deleted (no
  `raise_for_status` on that delete).
* Creation (lines 671-713): a failed POST raises
  `Unable to create Gitlab issue ...`, with nothing created and the mapping
  untouched.
* Commit point (lines 722-730): the mapping entry is written right after
  creation, BEFORE enrichment.
* Enrichment (lines 734-884): on failure the handler deletes the Gitlab
  issue and re-raises; it does NOT remove the mapping entry just written.
  On success `store_import_status()` persists (line 888). -/
def processIssue (md5 : String → String) (o : IssueOracle) (i : MIssue)
    (m : Mapping) : Mapping × List Ev × Bool :=
  let h := issueFingerprint md5 i.body
  let evs0 : List Ev :=
    match List.lookup i.key m with
    | some (ref0, _) => [.deleted ref0]
    | none => []
  match List.lookup i.key m with
  | some (_, h0) =>
    if h0 = h then (m, [], false)
    else
      match o.create with
      | none => (m, evs0, true)
      | some ref =>
        let m' := upsert m i.key (ref, h)
        if o.enrich then (m', evs0 ++ [.created i.key ref, .persisted m'], false)
        else (m', evs0 ++ [.created i.key ref, .deleted ref], true)
  | none =>
    match o.create with
    | none => (m, evs0, true)
    | some ref =>
      let m' := upsert m i.key (ref, h)
      if o.enrich then (m', evs0 ++ [.created i.key ref, .persisted m'], false)
      else (m', evs0 ++ [.created i.key ref, .deleted ref], true)

/-- The loop over `jira_issues` (line 542): a raised iteration propagates and
ends the run (`true` = the run aborted with an uncaught exception). -/
def runIssues (md5 : String → String) (orc : String → IssueOracle) :
    List MIssue → Mapping → Mapping × List Ev × Bool
  | [], m => (m, [], false)
  | i :: rest, m =>
    match processIssue md5 (orc i.key) i m with
    | (m', evs, true) => (m', evs, true)
    | (m', evs, false) =>
      match runIssues md5 orc rest m' with
      | (m'', evs', ab) => (m'', evs ++ evs', ab)

/-- A run followed by `wrapup()` (lines 1010-1029), which persists
`IMPORT_STATUS` via `store_import_status()` whether the run succeeded or
aborted. -/
def runAndWrapup (md5 : String → String) (orc : String → IssueOracle)
    (issues : List MIssue) (m : Mapping) : Mapping × List Ev :=
  match runIssues md5 orc issues m with
  | (m', evs, _) => (m', evs ++ [.persisted m'])

theorem lookup_upsert_self (m : Mapping) (k : String) (v : GlRef × String) :
    List.lookup k (upsert m k v) = some v := by
  induction m with
  | nil => simp [upsert, List.lookup]
  | cons e rest ih =>
    by_cases h : e.1 = k
    · simp [upsert, h, List.lookup]
    · simp only [upsert, if_neg h, List.lookup]
      rw [show (k == e.1) = false from beq_false_of_ne (fun hh => h hh.symm)]
      exact ih

theorem lookup_upsert_ne (m : Mapping) (k k' : String) (v : GlRef × String)
    (h : k' ≠ k) : List.lookup k' (upsert m k v) = List.lookup k' m := by
  induction m with
  | nil =>
    simp only [upsert, List.lookup]
    rw [show (k' == k) = false by simp [h]]
  | cons e rest ih =>
    by_cases he : e.1 = k
    · simp only [upsert, if_pos he, List.lookup]
      rw [show (k' == k) = false from beq_false_of_ne h,
        show (k' == e.1) = false from beq_false_of_ne (fun hh => h (hh.trans he))]
    · simp only [upsert, if_neg he, List.lookup]
      cases hbe : (k' == e.1)
      · exact ih
      · rfl

/-- The skip path (lines 548-552): an existing record with the current
fingerprint ends the iteration with no state change and no remote call. -/
theorem processIssue_skip (md5 : String → String) (o : IssueOracle) (i : MIssue)
    (m : Mapping) (r : GlRef)
    (h : List.lookup i.key m = some (r, issueFingerprint md5 i.body)) :
    processIssue md5 o i m = (m, [], false) := by
  simp [processIssue, h]

theorem processIssue_fresh_createFail (md5 : String → String) (o : IssueOracle)
    (i : MIssue) (m : Mapping) (hl : List.lookup i.key m = none)
    (hc : o.create = none) : processIssue md5 o i m = (m, [], true) := by
  simp [processIssue, hl, hc]

theorem processIssue_fresh_ok (md5 : String → String) (o : IssueOracle)
    (i : MIssue) (m : Mapping) (ref : GlRef) (hl : List.lookup i.key m = none)
    (hc : o.create = some ref) (he : o.enrich = true) :
    processIssue md5 o i m =
      (upsert m i.key (ref, issueFingerprint md5 i.body),
       [.created i.key ref,
        .persisted (upsert m i.key (ref, issueFingerprint md5 i.body))], false) := by
  simp [processIssue, hl, hc, he]

theorem processIssue_fresh_enrichFail (md5 : String → String) (o : IssueOracle)
    (i : MIssue) (m : Mapping) (ref : GlRef) (hl : List.lookup i.key m = none)
    (hc : o.create = some ref) (he : o.enrich = false) :
    processIssue md5 o i m =
      (upsert m i.key (ref, issueFingerprint md5 i.body),
       [.created i.key ref, .deleted ref], true) := by
  simp [processIssue, hl, hc, he]

theorem processIssue_changed_createFail (md5 : String → String) (o : IssueOracle)
    (i : MIssue) (m : Mapping) (r0 : GlRef) (h0 : String)
    (hl : List.lookup i.key m = some (r0, h0))
    (hne : h0 ≠ issueFingerprint md5 i.body) (hc : o.create = none) :
    processIssue md5 o i m = (m, [.deleted r0], true) := by
  simp [processIssue, hl, hne, hc]

theorem processIssue_changed_ok (md5 : String → String) (o : IssueOracle)
    (i : MIssue) (m : Mapping) (r0 : GlRef) (h0 : String) (ref : GlRef)
    (hl : List.lookup i.key m = some (r0, h0))
    (hne : h0 ≠ issueFingerprint md5 i.body)
    (hc : o.create = some ref) (he : o.enrich = true) :
    processIssue md5 o i m =
      (upsert m i.key (ref, issueFingerprint md5 i.body),
       [.deleted r0, .created i.key ref,
        .persisted (upsert m i.key (ref, issueFingerprint md5 i.body))], false) := by
  simp [processIssue, hl, hne, hc, he]

theorem processIssue_changed_enrichFail (md5 : String → String) (o : IssueOracle)
    (i : MIssue) (m : Mapping) (r0 : GlRef) (h0 : String) (ref : GlRef)
    (hl : List.lookup i.key m = some (r0, h0))
    (hne : h0 ≠ issueFingerprint md5 i.body)
    (hc : o.create = some ref) (he : o.enrich = false) :
    processIssue md5 o i m =
      (upsert m i.key (ref, issueFingerprint md5 i.body),
       [.deleted r0, .created i.key ref, .deleted ref], true) := by
  simp [processIssue, hl, hne, hc, he]

/-- A non-raising iteration leaves the issue's record holding the current
fingerprint. -/
theorem processIssue_ok_lookup (md5 : String → String) (o : IssueOracle) (i : MIssue)
    (m m' : Mapping) (evs : List Ev)
    (h : processIssue md5 o i m = (m', evs, false)) :
    ∃ r, List.lookup i.key m' = some (r, issueFingerprint md5 i.body) := by
  rcases hl : List.lookup i.key m with _ | ⟨r0, h0⟩
  · rcases hc : o.create with _ | ref
    · rw [processIssue_fresh_createFail md5 o i m hl hc] at h
      simp at h
    · cases he : o.enrich
      · rw [processIssue_fresh_enrichFail md5 o i m ref hl hc he] at h
        simp at h
      · rw [processIssue_fresh_ok md5 o i m ref hl hc he] at h
        simp only [Prod.mk.injEq] at h
        exact ⟨ref, h.1 ▸ lookup_upsert_self m i.key _⟩
  · by_cases heq : h0 = issueFingerprint md5 i.body
    · rw [processIssue_skip md5 o i m r0 (heq ▸ hl)] at h
      simp only [Prod.mk.injEq] at h
      exact ⟨r0, h.1 ▸ (heq ▸ hl)⟩
    · rcases hc : o.create with _ | ref
      · rw [processIssue_changed_createFail md5 o i m r0 h0 hl heq hc] at h
        simp at h
      · cases he : o.enrich
        · rw [processIssue_changed_enrichFail md5 o i m r0 h0 ref hl heq hc he] at h
          simp at h
        · rw [processIssue_changed_ok md5 o i m r0 h0 ref hl heq hc he] at h
          simp only [Prod.mk.injEq] at h
          exact ⟨ref, h.1 ▸ lookup_upsert_self m i.key _⟩

/-- An iteration only writes its own issue's record. -/
theorem processIssue_preserve (md5 : String → String) (o : IssueOracle) (i : MIssue)
    (m : Mapping) (k : String) (hk : k ≠ i.key) :
    List.lookup k (processIssue md5 o i m).1 = List.lookup k m := by
  rcases hl : List.lookup i.key m with _ | ⟨r0, h0⟩
  · rcases hc : o.create with _ | ref
    · rw [processIssue_fresh_createFail md5 o i m hl hc]
    · cases he : o.enrich
      · rw [processIssue_fresh_enrichFail md5 o i m ref hl hc he]
        exact lookup_upsert_ne m i.key k _ hk
      · rw [processIssue_fresh_ok md5 o i m ref hl hc he]
        exact lookup_upsert_ne m i.key k _ hk
  · by_cases heq : h0 = issueFingerprint md5 i.body
    · rw [processIssue_skip md5 o i m r0 (heq ▸ hl)]
    · rcases hc : o.create with _ | ref
      · rw [processIssue_changed_createFail md5 o i m r0 h0 hl heq hc]
      · cases he : o.enrich
        · rw [processIssue_changed_enrichFail md5 o i m r0 h0 ref hl heq hc he]
          exact lookup_upsert_ne m i.key k _ hk
        · rw [processIssue_changed_ok md5 o i m r0 h0 ref hl heq hc he]
          exact lookup_upsert_ne m i.key k _ hk

theorem runIssues_cons (md5 : String → String) (orc : String → IssueOracle)
    (i : MIssue) (rest : List MIssue) (m : Mapping) :
    runIssues md5 orc (i :: rest) m =
      (match processIssue md5 (orc i.key) i m with
       | (m', evs, true) => (m', evs, true)
       | (m', evs, false) =>
         match runIssues md5 orc rest m' with
         | (m'', evs', ab) => (m'', evs ++ evs', ab)) := rfl

/-- A run preserves the records of keys it does not process. -/
theorem runIssues_preserve (md5 : String → String) (orc : String → IssueOracle) :
    ∀ (issues : List MIssue) (m : Mapping) (k : String),
    k ∉ issues.map MIssue.key →
    List.lookup k (runIssues md5 orc issues m).1 = List.lookup k m := by
  intro issues
  induction issues with
  | nil => intro m k _; rfl
  | cons i rest ih =>
    intro m k hk
    simp only [List.map_cons, List.mem_cons, not_or] at hk
    rw [runIssues_cons]
    rcases hstep : processIssue md5 (orc i.key) i m with ⟨ma, evsa, (_ | _)⟩
    · rcases hrest : runIssues md5 orc rest ma with ⟨mb, evsb, abb⟩
      simp only
      rw [hrest]
      simp only
      have h1 : List.lookup k mb = List.lookup k ma := by
        have := ih ma k hk.2
        rw [hrest] at this
        exact this
      rw [h1]
      have h2 := processIssue_preserve md5 (orc i.key) i m k hk.1
      rw [hstep] at h2
      exact h2
    · simp only
      have h2 := processIssue_preserve md5 (orc i.key) i m k hk.1
      rw [hstep] at h2
      exact h2

/-- After a run that did not abort, every processed issue's record holds the
issue's current fingerprint (keys assumed distinct, as Jira keys are). -/
theorem runIssues_ok_lookup (md5 : String → String) (orc : String → IssueOracle) :
    ∀ (issues : List MIssue) (m : Mapping),
    (issues.map MIssue.key).Nodup →
    (runIssues md5 orc issues m).2.2 = false →
    ∀ i ∈ issues, ∃ r,
      List.lookup i.key (runIssues md5 orc issues m).1 =
        some (r, issueFingerprint md5 i.body) := by
  intro issues
  induction issues with
  | nil =>
    intro m _ _ i hi
    cases hi
  | cons j rest ih =>
    intro m hnd hab i hi
    simp only [List.map_cons, List.nodup_cons] at hnd
    rw [runIssues_cons] at hab ⊢
    rcases hstep : processIssue md5 (orc j.key) j m with ⟨ma, evsa, (_ | _)⟩
    · rw [hstep] at hab
      simp only at hab ⊢
      rcases hrest : runIssues md5 orc rest ma with ⟨mb, evsb, abb⟩
      rw [hrest] at hab
      simp only at hab ⊢
      subst hab
      rcases hi with _ | ⟨_, hi⟩
      · obtain ⟨r, hr⟩ := processIssue_ok_lookup md5 (orc j.key) j m ma evsa hstep
        refine ⟨r, ?_⟩
        have hp := runIssues_preserve md5 orc rest ma j.key hnd.1
        rw [hrest] at hp
        simp only at hp
        rw [hp]
        exact hr
      · have := ih ma hnd.2 (by rw [hrest]) i hi
        rw [hrest] at this
        simp only at this
        exact this
    · rw [hstep] at hab
      simp at hab

/-- A run in which every issue's record already holds the current fingerprint
is a no-op: everything is skipped, nothing is created or persisted. -/
theorem runIssues_all_skip (md5 : String → String) (orc : String → IssueOracle) :
    ∀ (issues : List MIssue) (m : Mapping),
    (∀ i ∈ issues, ∃ r, List.lookup i.key m = some (r, issueFingerprint md5 i.body)) →
    runIssues md5 orc issues m = (m, [], false) := by
  intro issues
  induction issues with
  | nil => intro m _; rfl
  | cons j rest ih =>
    intro m hall
    obtain ⟨r, hr⟩ := hall j (List.mem_cons_self j rest)
    rw [runIssues_cons, processIssue_skip md5 (orc j.key) j m r hr]
    simp only
    rw [ih m (fun i hi => hall i (List.mem_cons_of_mem j hi))]
    simp
/-! ### Claims C1, C2, C6 -/

/-- C2 (confirmed): an item whose computed fingerprint equals the stored one
is skipped with no further action (first conjunct, the skip rule of lines
548-552); consequently a second run over the same unchanged issues after a
first run that did not abort performs no action at all: no creations, no
deletions, no persists, and an unchanged mapping (second conjunct). -/
theorem C2_idempotent_rerun (md5 : String → String)
    (orc1 orc2 : String → IssueOracle) (issues : List MIssue) (m0 : Mapping)
    (hnd : (issues.map MIssue.key).Nodup)
    (h1 : (runIssues md5 orc1 issues m0).2.2 = false) :
    (∀ (o : IssueOracle) (i : MIssue) (m : Mapping) (r : GlRef),
      List.lookup i.key m = some (r, issueFingerprint md5 i.body) →
      processIssue md5 o i m = (m, [], false)) ∧
    runIssues md5 orc2 issues (runIssues md5 orc1 issues m0).1 =
      ((runIssues md5 orc1 issues m0).1, [], false) := by
  refine ⟨fun o i m r h => processIssue_skip md5 o i m r h, ?_⟩
  exact runIssues_all_skip md5 orc2 issues (runIssues md5 orc1 issues m0).1
    (fun i hi => runIssues_ok_lookup md5 orc1 issues m0 hnd h1 i hi)

def c2Ref1 : GlRef := ⟨31, 5, 1, "g/p#1"⟩

def c2Ref2 : GlRef := ⟨32, 5, 2, "g/p#2"⟩

def c2Orc : String → IssueOracle :=
  fun k => if k = "P-1" then ⟨some c2Ref1, true⟩ else ⟨some c2Ref2, true⟩

def c2Issues : List MIssue :=
  [⟨"P-1", [("fields", .obj [("summary", .str "a")])]⟩,
   ⟨"P-2", [("fields", .obj [("summary", .str "b")])]⟩]

/-- Witness for C2: two fresh issues imported by a first run are both skipped
by a second run over the same source, which changes nothing. -/
theorem C2_idempotent_rerun_witness :
    (∀ (o : IssueOracle) (i : MIssue) (m : Mapping) (r : GlRef),
      List.lookup i.key m = some (r, issueFingerprint id i.body) →
      processIssue id o i m = (m, [], false)) ∧
    runIssues id c2Orc c2Issues (runIssues id c2Orc c2Issues []).1 =
      ((runIssues id c2Orc c2Issues []).1, [], false) :=
  C2_idempotent_rerun id c2Orc c2Orc c2Issues [] (by decide) (by decide)

def c1Ref : GlRef := ⟨11, 5, 3, "g/p#3"⟩

def c1Body : List (String × JVal) := [("fields", .obj [("summary", .str "s")])]

def c1Orc : String → IssueOracle := fun _ => ⟨some c1Ref, false⟩

/-- C1 (code bug): an issue whose creation succeeds and whose enrichment
fails.  The failure handler (lines 870-884) deletes the just-created Gitlab
issue and re-raises, but it never removes the `issue_mapping` entry written
at the commit point (lines 722-730); `wrapup()` then persists the stale
record.  The run trace below shows the issue deleted (`.deleted c1Ref`)
while the final persisted mapping still holds its Migration Record with the
current fingerprint - so the next run will SKIP the issue even though its
Gitlab copy is gone. -/
theorem C1_stale_record_survives_rollback :
    runAndWrapup id c1Orc [⟨"PROJ-1", c1Body⟩] [] =
      ([("PROJ-1", (c1Ref, issueFingerprint id c1Body))],
       [.created "PROJ-1" c1Ref, .deleted c1Ref,
        .persisted [("PROJ-1", (c1Ref, issueFingerprint id c1Body))]]) ∧
    Ev.deleted c1Ref ∈ (runAndWrapup id c1Orc [⟨"PROJ-1", c1Body⟩] []).2 ∧
    List.lookup "PROJ-1" (runAndWrapup id c1Orc [⟨"PROJ-1", c1Body⟩] []).1 =
      some (c1Ref, issueFingerprint id c1Body) :=
  ⟨rfl, by decide, by decide⟩

/-- C6 (corrected): when creating the target item fails, nothing was created
and nothing is rolled back (mapping unchanged, no events) and the failure is
surfaced - but the run does NOT continue with the next item: the raised
exception aborts the whole run, leaving the remaining items unprocessed. -/
theorem C6_create_failure_aborts (md5 : String → String)
    (orc : String → IssueOracle) (i : MIssue) (rest : List MIssue) (m : Mapping)
    (hfresh : List.lookup i.key m = none)
    (hfail : (orc i.key).create = none) :
    runIssues md5 orc (i :: rest) m = (m, [], true) := by
  rw [runIssues_cons, processIssue_fresh_createFail md5 (orc i.key) i m hfresh hfail]

def c6Ref : GlRef := ⟨21, 5, 4, "g/p#4"⟩

def c6Orc : String → IssueOracle :=
  fun k => if k = "K2" then ⟨some c6Ref, true⟩ else ⟨none, true⟩

/-- Counterexample refuting C6 as stated: issue K2 imports fine on its own
(second conjunct), but when it follows issue K1 whose creation POST fails,
the run aborts at K1 and K2 is never migrated (first conjunct: no events at
all, aborted flag set) - the run does not "continue with the next item". -/
theorem C6_create_failure_counterexample :
    runIssues id c6Orc [⟨"K1", []⟩, ⟨"K2", []⟩] [] = ([], [], true) ∧
    runIssues id c6Orc [⟨"K2", []⟩] [] =
      ([("K2", (c6Ref, issueFingerprint id []))],
       [.created "K2" c6Ref,
        .persisted [("K2", (c6Ref, issueFingerprint id []))]], false) :=
  ⟨rfl, rfl⟩

/-- Witness for C6 at a concrete run: creation of K1 fails, so the two-issue
run aborts untouched. -/
theorem C6_create_failure_aborts_witness :
    runIssues id c6Orc [⟨"K1", []⟩, ⟨"K2", []⟩] [] = ([], [], true) :=
  C6_create_failure_aborts id c6Orc ⟨"K1", []⟩ [⟨"K2", []⟩] [] rfl rfl
/-! ### Claim C4: the pending-relationship resolver -/

/-- A pending relationship `(j_from, j_type, j_to)` of
`IMPORT_STATUS["links_todo"]`. -/
abbrev Triple := String × String × String

/-- Line 904: both endpoints have Migration Records. -/
def bothMapped (m : Mapping) (t : Triple) : Bool :=
  (List.lookup t.1 m).isSome && (List.lookup t.2.2 m).isSome

/-- Line 914: the types turned into native Gitlab issue links. -/
def nativeLinkType (ty : String) : Bool :=
  ty = "relates to" || ty = "blocks" || ty = "causes"

/-- Whether a triple survives the resolver pass: an endpoint without a
record is skipped (lines 904-906), and the types the pass does not remove
are "clones" (lines 944-947) and unknown ones (lines 948-949). -/
def keepTriple (m : Mapping) (t : Triple) : Bool :=
  !(bothMapped m t && (nativeLinkType t.2.1 || t.2.1 = "duplicates"))

/-- One iteration of the `process_links` loop body (lines 892-943) on triple
`t` against the live pending set `todo`.  `linkOk`/`noteOk` are the outcomes
of the link-creation POST (lines 916-924) and the duplicate-annotation POST
(lines 932-940); a failure is caught and only printed (925-926, 941-942),
and the `remove` of lines 927/943 sits OUTSIDE the `try`, so it runs either
way. -/
def processLink (m : Mapping) (linkOk noteOk : Triple → Bool) (t : Triple)
    (todo : List Triple) : List Triple :=
  if !(bothMapped m t) then todo
  else if nativeLinkType t.2.1 then
    match linkOk t with
    | _ => todo.erase t
  else if t.2.1 = "duplicates" then
    match noteOk t with
    | _ => todo.erase t
  else todo

/-- The loop of `process_links()` (line 892): iterate over a copy of the
pending set while removing from the live one. -/
def linksFold (m : Mapping) (linkOk noteOk : Triple → Bool) :
    List Triple → List Triple → List Triple
  | [], todo => todo
  | t :: rest, todo =>
    linksFold m linkOk noteOk rest (processLink m linkOk noteOk t todo)

/-- `process_links()` (lines 891-949). -/
def process_links (m : Mapping) (linkOk noteOk : Triple → Bool)
    (todo : List Triple) : List Triple :=
  linksFold m linkOk noteOk todo todo

theorem processLink_keep (m : Mapping) (lo no : Triple → Bool) (t : Triple)
    (todo : List Triple) (h : keepTriple m t = true) :
    processLink m lo no t todo = todo := by
  unfold processLink
  unfold keepTriple at h
  cases hb : bothMapped m t
  · simp
  · rw [hb] at h
    cases hn : nativeLinkType t.2.1
    · rw [hn] at h
      by_cases hd : t.2.1 = "duplicates"
      · simp [hd] at h
      · simp [hn, hd]
    · simp [hn] at h

theorem processLink_remove (m : Mapping) (lo no : Triple → Bool) (t : Triple)
    (todo : List Triple) (h : keepTriple m t = false) :
    processLink m lo no t todo = todo.erase t := by
  unfold processLink
  unfold keepTriple at h
  cases hb : bothMapped m t
  · rw [hb] at h
    simp at h
  · cases hn : nativeLinkType t.2.1
    · rw [hb, hn] at h
      simp only [Bool.false_or, Bool.true_and, Bool.not_eq_false] at h
      have hd : t.2.1 = "duplicates" := by simpa using h
      simp [hn, hd]
    · simp [hn]

theorem erase_filter_of_neg {α : Type} [BEq α] [LawfulBEq α] (p : α → Bool)
    (t : α) (hp : p t = false) :
    ∀ l : List α, (l.erase t).filter p = l.filter p := by
  intro l
  induction l with
  | nil => rfl
  | cons a l ih =>
    by_cases ha : a = t
    · subst ha
      simp [List.erase_cons, hp, List.filter_cons]
    · rw [List.erase_cons, if_neg (by simp [ha])]
      simp only [List.filter_cons]
      rw [ih]

theorem linksFold_filter (m : Mapping) (lo no : Triple → Bool) :
    ∀ (c todo : List Triple),
    (∀ t, keepTriple m t = false → todo.count t ≤ c.count t) →
    linksFold m lo no c todo = todo.filter (keepTriple m) := by
  intro c
  induction c with
  | nil =>
    intro todo h
    have : ∀ t ∈ todo, keepTriple m t = true := by
      intro t ht
      by_contra hc
      have hf : keepTriple m t = false := by
        cases hk : keepTriple m t
        · rfl
        · exact absurd hk hc
      have := h t hf
      simp only [List.count_nil, Nat.le_zero] at this
      exact absurd ((List.count_pos_iff).mpr ht) (by omega)
    simp only [linksFold]
    exact (List.filter_eq_self.mpr this).symm
  | cons t rest ih =>
    intro todo h
    simp only [linksFold]
    cases hk : keepTriple m t
    · rw [processLink_remove m lo no t todo hk]
      rw [ih (todo.erase t) ?_]
      · exact erase_filter_of_neg (keepTriple m) t hk todo
      · intro u hu
        by_cases hut : u = t
        · subst hut
          have := h u hu
          rw [List.count_cons_self] at this
          rw [List.count_erase_self]
          omega
        · rw [List.count_erase_of_ne hut]
          have := h u hu
          rw [List.count_cons_of_ne hut] at this
          exact this
    · rw [processLink_keep m lo no t todo hk]
      rw [ih todo ?_]
      intro u hu
      have := h u hu
      have hut : u ≠ t := fun he => by rw [he] at hu; rw [hu] at hk; cases hk
      rw [List.count_cons_of_ne hut] at this
      exact this

/-- C4 (corrected): the final pending set after `process_links` is exactly
the triples with an unmapped endpoint or an unhandled type ("clones",
unknown) - i.e. a triple of a handled type with both endpoints mapped is
removed from the pending set WHETHER OR NOT its relationship-creation or
annotation call succeeded (the `remove` sits outside the `try`), while a
triple with an endpoint lacking a Migration Record is indeed left pending.
The second conjunct makes the outcome-independence explicit. -/
theorem C4_pending_removal_not_success_gated (m : Mapping)
    (linkOk noteOk linkOk' noteOk' : Triple → Bool) (todo : List Triple) :
    process_links m linkOk noteOk todo = todo.filter (keepTriple m) ∧
    process_links m linkOk noteOk todo = process_links m linkOk' noteOk' todo := by
  have h1 := linksFold_filter m linkOk noteOk todo todo (fun t _ => le_refl _)
  have h2 := linksFold_filter m linkOk' noteOk' todo todo (fun t _ => le_refl _)
  exact ⟨h1, h1.trans h2.symm⟩

def c4Ref : GlRef := ⟨41, 5, 6, "g/p#6"⟩

/-- Counterexample refuting C4 as stated ("removed only on success"): both
endpoints of `("A", "blocks", "B")` are mapped, the link-creation call fails
(`fun _ => false`), and the triple is removed from the pending set anyway. -/
theorem C4_failed_link_still_removed :
    process_links [("A", (c4Ref, "h")), ("B", (c4Ref, "h"))]
      (fun _ => false) (fun _ => false) [("A", "blocks", "B")] = [] := by
  decide
/-! ### Claim C5: the impersonation ledger -/

/-- `gitlab_user_admin(user, False)` (lines 307-330) acting on the ledger
`IMPORT_STATUS["gl_users_made_admin"]`: the admin account itself is refused
up front (lines 309-310, no ledger change); otherwise the PUT runs (`ok u`
is its outcome; `false` means `raise_for_status` threw, which the function
re-raises as `Exception` - modeled `none`); on success the username is
removed from the ledger (line 328). -/
def gitlab_user_admin_revoke (admin : String) (ok : String → Bool)
    (u : String) (ledger : List String) : Option (List String) :=
  if u = admin then some ledger
  else if ok u then some (ledger.erase u) else none

/-- The loop of `reset_user_privileges` (lines 977-986) over a copy of the
ledger: an exception aborts the loop (`true`), leaving the ledger as it
stands at that point. -/
def resetLoop (admin : String) (ok : String → Bool) :
    List String → List String → List String × Bool
  | [], ledger => (ledger, false)
  | u :: rest, ledger =>
    match gitlab_user_admin_revoke admin ok u ledger with
    | none => (ledger, true)
    | some l2 => resetLoop admin ok rest l2

/-- `reset_user_privileges()` (lines 977-986). -/
def reset_user_privileges (admin : String) (ok : String → Bool)
    (ledger : List String) : List String × Bool :=
  resetLoop admin ok ledger ledger

/-- `wrapup()` (lines 1010-1029): `reset_user_privileges` runs inside
`try/except` (a raise is caught and printed), then `final_report()`
(lines 989-1006) prints every remaining `gl_users_made_admin` entry iff the
set is nonempty.  Returns (ledger at process exit, entries surfaced in the
final report). -/
def wrapupLedger (admin : String) (ok : String → Bool)
    (ledger : List String) : List String × List String :=
  match reset_user_privileges admin ok ledger with
  | (final, _) => (final, if final.isEmpty then [] else final)

theorem resetLoop_all_ok (admin : String) (ok : String → Bool) :
    ∀ (c ledger : List String),
    (∀ u ∈ c, u ≠ admin → ok u = true) →
    (∀ v, v ≠ admin → ledger.count v ≤ c.count v) →
    admin ∉ ledger →
    resetLoop admin ok c ledger = ([], false) := by
  intro c
  induction c with
  | nil =>
    intro ledger _ hcount hadm
    have : ledger = [] := by
      rcases hl : ledger with _ | ⟨v, rest⟩
      · rfl
      · exfalso
        have hv : v ∈ ledger := by rw [hl]; exact List.mem_cons_self v rest
        have hvadm : v ≠ admin := fun he => hadm (he ▸ hv)
        have := hcount v hvadm
        simp only [List.count_nil, Nat.le_zero] at this
        exact absurd (List.count_pos_iff.mpr hv) (by omega)
    rw [this]
    rfl
  | cons u rest ih =>
    intro ledger hc hcount hadm
    simp only [resetLoop, gitlab_user_admin_revoke]
    by_cases hu : u = admin
    · rw [if_pos hu]
      refine ih ledger (fun v hv => hc v (List.mem_cons_of_mem u hv)) ?_ hadm
      intro v hv
      have := hcount v hv
      rw [List.count_cons_of_ne (fun he => hv (he.trans hu))] at this
      exact this
    · rw [if_neg hu, if_pos (hc u (List.mem_cons_self u rest) hu)]
      refine ih (ledger.erase u) (fun v hv => hc v (List.mem_cons_of_mem u hv)) ?_
        (fun hm => hadm (List.mem_of_mem_erase hm))
      intro v hv
      by_cases hvu : v = u
      · subst hvu
        have := hcount v hv
        rw [List.count_cons_self] at this
        rw [List.count_erase_self]
        omega
      · rw [List.count_erase_of_ne hvu]
        have := hcount v hv
        rw [List.count_cons_of_ne hvu] at this
        exact this

theorem resetLoop_failed_stays (admin : String) (ok : String → Bool) :
    ∀ (c ledger : List String) (u : String),
    u ∈ ledger → ok u = false →
    u ∈ (resetLoop admin ok c ledger).1 := by
  intro c
  induction c with
  | nil =>
    intro ledger u hu _
    exact hu
  | cons v rest ih =>
    intro ledger u hu hfail
    simp only [resetLoop, gitlab_user_admin_revoke]
    by_cases hv : v = admin
    · rw [if_pos hv]
      exact ih ledger u hu hfail
    · rw [if_neg hv]
      cases hok : ok v
      · exact hu
      · simp only [if_true]
        refine ih (ledger.erase v) u ?_ hfail
        exact List.mem_erase_of_ne (fun he => by rw [he] at hfail; rw [hfail] at hok; cases hok) |>.mpr hu

/-- C5 (confirmed): the ledger invariant.  (1) If every entry's PUT succeeds,
the ledger is empty at exit and nothing needs reporting.  (2) An entry whose
reversion fails is still in the ledger at exit AND appears in the final
report.  (3) At exit the ledger is empty or the report lists exactly the
remaining entries - nothing is silently dropped.  (4) An entry that left the
ledger was reverted successfully (removal only on success). -/
theorem C5_ledger_never_silently_dropped (admin : String) (ok : String → Bool)
    (ledger : List String) (hadm : admin ∉ ledger) :
    ((∀ u ∈ ledger, ok u = true) → wrapupLedger admin ok ledger = ([], [])) ∧
    (∀ u ∈ ledger, ok u = false →
      u ∈ (wrapupLedger admin ok ledger).1 ∧ u ∈ (wrapupLedger admin ok ledger).2) ∧
    ((wrapupLedger admin ok ledger).1 = [] ∨
      (wrapupLedger admin ok ledger).2 = (wrapupLedger admin ok ledger).1) ∧
    (∀ u ∈ ledger, u ∉ (wrapupLedger admin ok ledger).1 → ok u = true) := by
  refine ⟨?_, ?_, ?_, ?_⟩
  · intro hall
    have h := resetLoop_all_ok admin ok ledger ledger
      (fun u hu _ => hall u hu) (fun v _ => le_refl _) hadm
    simp [wrapupLedger, reset_user_privileges, h]
  · intro u hu hfail
    have h := resetLoop_failed_stays admin ok ledger ledger u hu hfail
    have h1 : u ∈ (wrapupLedger admin ok ledger).1 := by
      simp only [wrapupLedger, reset_user_privileges]
      rcases hr : resetLoop admin ok ledger ledger with ⟨final, ab⟩
      rw [hr] at h
      exact h
    refine ⟨h1, ?_⟩
    simp only [wrapupLedger, reset_user_privileges] at h1 ⊢
    rcases hr : resetLoop admin ok ledger ledger with ⟨final, ab⟩
    rw [hr] at h1
    simp only at h1 ⊢
    rw [if_neg (by simp [List.isEmpty_iff]; exact List.ne_nil_of_mem h1)]
    exact h1
  · simp only [wrapupLedger, reset_user_privileges]
    rcases hr : resetLoop admin ok ledger ledger with ⟨final, ab⟩
    simp only
    cases hf : final.isEmpty
    · right
      rw [if_neg (by simp [hf])]
    · left
      exact List.isEmpty_iff.mp hf
  · intro u hu hnot
    cases hok : ok u
    · exfalso
      have h := resetLoop_failed_stays admin ok ledger ledger u hu hok
      apply hnot
      simp only [wrapupLedger, reset_user_privileges]
      rcases hr : resetLoop admin ok ledger ledger with ⟨final, ab⟩
      rw [hr] at h
      exact h
    · rfl

/-- Witness for C5: ledger `["alice", "bob"]`, root not in it; `bob`'s PUT
fails, so `bob` stays in the ledger and is reported; with an all-success
oracle the ledger drains. -/
theorem C5_ledger_never_silently_dropped_witness :
    ((∀ u ∈ ["alice", "bob"], (fun v => v ≠ "bob" : String → Bool) u = true) →
      wrapupLedger "root" (fun v => v ≠ "bob") ["alice", "bob"] = ([], [])) ∧
    (∀ u ∈ ["alice", "bob"], (fun v => v ≠ "bob" : String → Bool) u = false →
      u ∈ (wrapupLedger "root" (fun v => v ≠ "bob") ["alice", "bob"]).1 ∧
      u ∈ (wrapupLedger "root" (fun v => v ≠ "bob") ["alice", "bob"]).2) ∧
    ((wrapupLedger "root" (fun v => v ≠ "bob") ["alice", "bob"]).1 = [] ∨
      (wrapupLedger "root" (fun v => v ≠ "bob") ["alice", "bob"]).2 =
        (wrapupLedger "root" (fun v => v ≠ "bob") ["alice", "bob"]).1) ∧
    (∀ u ∈ ["alice", "bob"],
      u ∉ (wrapupLedger "root" (fun v => v ≠ "bob") ["alice", "bob"]).1 →
      (fun v => v ≠ "bob" : String → Bool) u = true) :=
  C5_ledger_never_silently_dropped "root" (fun v => v ≠ "bob")
    ["alice", "bob"] (by decide)
/-! ### Claim C9: label lookup tables (jira2gitlab_config.py + lines 584-618) -/

def ISSUE_TYPE_MAP : List (String × String) :=
  [("Bug", "T::bug"), ("Improvement", "T::improvement"),
   ("New Feature", "T::new feature"), ("Spike", "T::spike"),
   ("Epic", "T::epic"), ("Story", "T::story"), ("Task", "T::task"),
   ("Sub-task", "T::task")]

def ISSUE_COMPONENT_MAP : List (String × String) :=
  [("Component1", "component1"), ("Component2", "component2")]

def ISSUE_PRIORITY_MAP : List (String × String) :=
  [("Trivial", "P::trivial"), ("Minor", "P::minor"), ("Major", "P::normal"),
   ("Critical", "P::critical"), ("Blocker", "P::blocker")]

def ISSUE_RESOLUTION_MAP : List (String × String) :=
  [("Cannot Reproduce", "S::can\x27t reproduce"), ("Duplicate", "S::duplicate"),
   ("Incomplete", "S::incomplete"), ("Won\x27t Do", "S::won\x27t do"),
   ("Won\x27t Fix", "S::won\x27t fix")]

def ISSUE_STATUS_MAP : List (String × String) :=
  [("Approved", "S::approved"), ("Awaiting documentation", "S::needs doc"),
   ("In Progress", "S::in progress"), ("In Review", "S::in review")]

def PREFIX_LABEL : String := ""

def PREFIX_COMPONENT : String := ""

def PREFIX_PRIORITY : String := "P::"

/-- Python `str.lower()` (the mapped names are ASCII, where it agrees with
per-character `toLower`). -/
def pyLower (s : String) : String := String.map Char.toLower s

/-- The priority block (lines 598-603).  `none` = no "priority" key;
`some none` = the key is present but null - then the condition on line 599
is false and the fallback on line 603 evaluates `None["name"]`, raising
`TypeError` (modeled as the outer `none`); `some (some p)` = priority `p`. -/
def priorityLabels : Option (Option String) → Option (List String)
  | none => some []
  | some none => none
  | some (some p) =>
    match List.lookup p ISSUE_PRIORITY_MAP with
    | some g => some [g]
    | none => some [PREFIX_PRIORITY ++ pyLower p]

/-- `gl_labels` as built on lines 584-618: the `jira-import` seed, existing
labels, issue type (generic lowercased fallback, line 593), priority,
components (prefixed lowercased fallback, line 610), then status and
resolution, each appended ONLY when its name is in the map (lines 613-618
have no else branch). -/
def computeLabels (labels : Option (List String)) (issuetype : String)
    (priority : Option (Option String)) (components : List String)
    (status : Option String) (resolution : Option String) :
    Option (List String) :=
  match priorityLabels priority with
  | none => none
  | some pls =>
    some (["jira-import"]
      ++ (match labels with
          | some ls => ls.map (fun s => PREFIX_LABEL ++ s)
          | none => [])
      ++ [match List.lookup issuetype ISSUE_TYPE_MAP with
          | some g => g
          | none => pyLower issuetype]
      ++ pls
      ++ components.map (fun c =>
          match List.lookup c ISSUE_COMPONENT_MAP with
          | some g => g
          | none => PREFIX_COMPONENT ++ pyLower c)
      ++ (match status with
          | some s =>
            match List.lookup s ISSUE_STATUS_MAP with
            | some g => [g]
            | none => []
          | none => [])
      ++ (match resolution with
          | some s =>
            match List.lookup s ISSUE_RESOLUTION_MAP with
            | some g => [g]
            | none => []
          | none => []))

/-- C9 (corrected): mapped type/priority/component/status/resolution values
yield the lookup-table label, and unmapped TYPE, PRIORITY and COMPONENT
values fall back to a generic derived label - but an unmapped STATUS or
RESOLUTION is silently dropped (no label, no fallback): the result is
identical to having no status/resolution at all (last two conjuncts). -/
theorem C9_unmapped_fallback_except_status_resolution
    (labels : Option (List String)) (it : String) (pr : Option (Option String))
    (comps : List String) (st res : Option String) (hpr : pr ≠ some none) :
    ∃ ls, computeLabels labels it pr comps st res = some ls ∧
      (∀ g, List.lookup it ISSUE_TYPE_MAP = some g → g ∈ ls) ∧
      (List.lookup it ISSUE_TYPE_MAP = none → pyLower it ∈ ls) ∧
      (∀ p g, pr = some (some p) → List.lookup p ISSUE_PRIORITY_MAP = some g →
        g ∈ ls) ∧
      (∀ p, pr = some (some p) → List.lookup p ISSUE_PRIORITY_MAP = none →
        PREFIX_PRIORITY ++ pyLower p ∈ ls) ∧
      (∀ c ∈ comps, ∀ g, List.lookup c ISSUE_COMPONENT_MAP = some g → g ∈ ls) ∧
      (∀ c ∈ comps, List.lookup c ISSUE_COMPONENT_MAP = none →
        PREFIX_COMPONENT ++ pyLower c ∈ ls) ∧
      (∀ s g, st = some s → List.lookup s ISSUE_STATUS_MAP = some g → g ∈ ls) ∧
      (∀ s g, res = some s → List.lookup s ISSUE_RESOLUTION_MAP = some g →
        g ∈ ls) ∧
      (∀ s, st = some s → List.lookup s ISSUE_STATUS_MAP = none →
        computeLabels labels it pr comps st res =
          computeLabels labels it pr comps none res) ∧
      (∀ s, res = some s → List.lookup s ISSUE_RESOLUTION_MAP = none →
        computeLabels labels it pr comps st res =
          computeLabels labels it pr comps st none) := by
  have hpl : ∃ pls, priorityLabels pr = some pls := by
    rcases pr with _ | (_ | p)
    · exact ⟨[], rfl⟩
    · exact absurd rfl hpr
    · simp only [priorityLabels]
      rcases List.lookup p ISSUE_PRIORITY_MAP with _ | g
      · exact ⟨_, rfl⟩
      · exact ⟨_, rfl⟩
  obtain ⟨pls, hpl⟩ := hpl
  refine ⟨_, by simp only [computeLabels, hpl]; exact rfl, ?_, ?_, ?_, ?_, ?_, ?_, ?_, ?_, ?_, ?_⟩
  · intro g hg
    simp [hg, List.mem_append]
  · intro hg
    simp [hg, List.mem_append]
  · intro p g hp hg
    subst hp
    simp only [priorityLabels, hg] at hpl
    obtain rfl : [g] = pls := by injection hpl
    simp [List.mem_append]
  · intro p hp hg
    subst hp
    simp only [priorityLabels, hg] at hpl
    obtain rfl : [PREFIX_PRIORITY ++ pyLower p] = pls := by injection hpl
    simp [List.mem_append]
  · intro c hc g hg
    refine List.mem_append_left _ (List.mem_append_left _ (List.mem_append_right _ ?_))
    exact List.mem_map.mpr ⟨c, hc, by rw [hg]⟩
  · intro c hc hg
    refine List.mem_append_left _ (List.mem_append_left _ (List.mem_append_right _ ?_))
    exact List.mem_map.mpr ⟨c, hc, by rw [hg]⟩
  · intro s g hs hg
    subst hs
    simp [hg, List.mem_append]
  · intro s g hs hg
    subst hs
    simp [hg, List.mem_append]
  · intro s hs hg
    subst hs
    simp [computeLabels, hpl, hg]
  · intro s hs hg
    subst hs
    simp [computeLabels, hpl, hg]

/-- Witness for C9 at concrete values: unmapped priority "Unranked" falls
back to `P::unranked`, unmapped component "Widget" to `widget`, mapped type
"Bug" to `T::bug`; unmapped status "Open" and resolution "Done" are dropped. -/
theorem C9_unmapped_fallback_witness :
    ∃ ls, computeLabels none "Bug" (some (some "Unranked")) ["Widget"]
        (some "Open") (some "Done") = some ls ∧
      (∀ g, List.lookup "Bug" ISSUE_TYPE_MAP = some g → g ∈ ls) ∧
      (List.lookup "Bug" ISSUE_TYPE_MAP = none → pyLower "Bug" ∈ ls) ∧
      (∀ p g, (some (some "Unranked") : Option (Option String)) = some (some p) →
        List.lookup p ISSUE_PRIORITY_MAP = some g → g ∈ ls) ∧
      (∀ p, (some (some "Unranked") : Option (Option String)) = some (some p) →
        List.lookup p ISSUE_PRIORITY_MAP = none →
        PREFIX_PRIORITY ++ pyLower p ∈ ls) ∧
      (∀ c ∈ ["Widget"], ∀ g, List.lookup c ISSUE_COMPONENT_MAP = some g →
        g ∈ ls) ∧
      (∀ c ∈ ["Widget"], List.lookup c ISSUE_COMPONENT_MAP = none →
        PREFIX_COMPONENT ++ pyLower c ∈ ls) ∧
      (∀ s g, (some "Open" : Option String) = some s →
        List.lookup s ISSUE_STATUS_MAP = some g → g ∈ ls) ∧
      (∀ s g, (some "Done" : Option String) = some s →
        List.lookup s ISSUE_RESOLUTION_MAP = some g → g ∈ ls) ∧
      (∀ s, (some "Open" : Option String) = some s →
        List.lookup s ISSUE_STATUS_MAP = none →
        computeLabels none "Bug" (some (some "Unranked")) ["Widget"]
          (some "Open") (some "Done") =
        computeLabels none "Bug" (some (some "Unranked")) ["Widget"]
          none (some "Done")) ∧
      (∀ s, (some "Done" : Option String) = some s →
        List.lookup s ISSUE_RESOLUTION_MAP = none →
        computeLabels none "Bug" (some (some "Unranked")) ["Widget"]
          (some "Open") (some "Done") =
        computeLabels none "Bug" (some (some "Unranked")) ["Widget"]
          (some "Open") none) :=
  C9_unmapped_fallback_except_status_resolution none "Bug"
    (some (some "Unranked")) ["Widget"] (some "Open") (some "Done") (by decide)

/-- Counterexample refuting C9 as stated: status "Open" and resolution
"Done" have no map entry, and instead of falling back to a derived label
they contribute nothing - the output equals the output with no status and
no resolution at all. -/
theorem C9_status_resolution_dropped :
    computeLabels none "Bug" none [] (some "Open") (some "Done") =
      some ["jira-import", "T::bug"] ∧
    computeLabels none "Bug" none [] (some "Open") (some "Done") =
      computeLabels none "Bug" none [] none none ∧
    List.lookup "Open" ISSUE_STATUS_MAP = none ∧
    List.lookup "Done" ISSUE_RESOLUTION_MAP = none :=
  ⟨by decide, by decide, by decide, by decide⟩
/-! ### Claim C10: fix versions and milestones -/

structure Milestone where
  title : String
  id : Nat
deriving DecidableEq

/-- `get_milestone_id(gl_milestones, gitlab_project_id, title)`
(lines 268-303): local-cache scan by exact title (returns without caching);
otherwise a Gitlab search (`searchQ`, `none` = the request raised), taking
the first hit; otherwise a creation POST (`createQ`, `none` = falsy
response, raised as `Exception`); search/create results are appended to the
cache. -/
def get_milestone_id (searchQ : String → Option (List Milestone))
    (createQ : String → Option Milestone) (gl_milestones : List Milestone)
    (gitlab_project_id : Nat) (title : String) :
    Option (List Milestone × Nat) :=
  match gl_milestones.find? (fun ms => ms.title = title) with
  | some ms => some (gl_milestones, ms.id)
  | none =>
    match searchQ title with
    | none => none
    | some (ms :: _) => some (gl_milestones ++ [ms], ms.id)
    | some [] =>
      match createQ title with
      | none => none
      | some ms => some (gl_milestones ++ [ms], ms.id)

/-- The fix-versions loop (lines 634-637):
`for fixVersion in issue["fields"]["fixVersions"]:
   gl_milestone_id = get_milestone_id(...)` - each iteration OVERWRITES
`gl_milestone_id`, so only the last-listed fix version's milestone survives
into the created issue's `milestone_id`. -/
def milestoneLoop (searchQ : String → Option (List Milestone))
    (createQ : String → Option Milestone) (pid : Nat) :
    List Milestone → Option Nat → List String →
    Option (List Milestone × Option Nat)
  | cache, cur, [] => some (cache, cur)
  | cache, _, t :: ts =>
    match get_milestone_id searchQ createQ cache pid t with
    | none => none
    | some (cache2, i) => milestoneLoop searchQ createQ pid cache2 (some i) ts

theorem get_milestone_id_mono (s : String → Option (List Milestone))
    (c : String → Option Milestone) (cache : List Milestone) (pid : Nat)
    (t : String) (cache2 : List Milestone) (i : Nat)
    (h : get_milestone_id s c cache pid t = some (cache2, i)) :
    ∃ ext, cache2 = cache ++ ext := by
  unfold get_milestone_id at h
  split at h
  · obtain ⟨h1, -⟩ := Prod.mk.injEq .. ▸ Option.some.inj h
    exact ⟨[], by rw [← h1, List.append_nil]⟩
  · split at h
    · cases h
    next ms _ _ =>
      obtain ⟨h1, -⟩ := Prod.mk.injEq .. ▸ Option.some.inj h
      exact ⟨[ms], h1.symm⟩
    · split at h
      · cases h
      next ms _ =>
        obtain ⟨h1, -⟩ := Prod.mk.injEq .. ▸ Option.some.inj h
        exact ⟨[ms], h1.symm⟩

theorem get_milestone_id_title (s : String → Option (List Milestone))
    (c : String → Option Milestone) (cache : List Milestone) (pid : Nat)
    (t : String) (cache2 : List Milestone) (i : Nat)
    (hs : ∀ u ms, s u = some ms → ∀ m ∈ ms, m.title = u)
    (hc : ∀ u m, c u = some m → m.title = u)
    (h : get_milestone_id s c cache pid t = some (cache2, i)) :
    ∃ m ∈ cache2, m.title = t ∧ m.id = i := by
  unfold get_milestone_id at h
  split at h
  next ms hfind =>
    obtain ⟨h1, h2⟩ := Prod.mk.injEq .. ▸ Option.some.inj h
    refine ⟨ms, h1 ▸ List.mem_of_find?_eq_some hfind, ?_, h2⟩
    have := List.find?_some hfind
    simpa using this
  · split at h
    · cases h
    next ms rest hsearch =>
      obtain ⟨h1, h2⟩ := Prod.mk.injEq .. ▸ Option.some.inj h
      refine ⟨ms, h1 ▸ List.mem_append_right _ (List.mem_singleton.mpr rfl), ?_, h2⟩
      exact hs t (ms :: rest) hsearch ms (List.mem_cons_self ms rest)
    · split at h
      · cases h
      next ms hcreate =>
        obtain ⟨h1, h2⟩ := Prod.mk.injEq .. ▸ Option.some.inj h
        exact ⟨ms, h1 ▸ List.mem_append_right _ (List.mem_singleton.mpr rfl),
          hc t ms hcreate, h2⟩

theorem milestoneLoop_mono (s : String → Option (List Milestone))
    (c : String → Option Milestone) (pid : Nat) :
    ∀ (vs : List String) (cache : List Milestone) (cur : Option Nat)
      (cache2 : List Milestone) (cur2 : Option Nat),
    milestoneLoop s c pid cache cur vs = some (cache2, cur2) →
    ∃ ext, cache2 = cache ++ ext := by
  intro vs
  induction vs with
  | nil =>
    intro cache cur cache2 cur2 h
    obtain ⟨h1, -⟩ := Prod.mk.injEq .. ▸ Option.some.inj h
    exact ⟨[], by rw [← h1, List.append_nil]⟩
  | cons t ts ih =>
    intro cache cur cache2 cur2 h
    unfold milestoneLoop at h
    split at h
    · cases h
    next ca i hgmi =>
      obtain ⟨e1, he1⟩ := ih ca (some i) cache2 cur2 h
      obtain ⟨e0, he0⟩ := get_milestone_id_mono s c cache pid t ca i hgmi
      exact ⟨e0 ++ e1, by rw [he1, he0, List.append_assoc]⟩

/-- C10 (confirmed).  First conjunct: appending a final fix version `t`
makes the assigned milestone exactly the one `get_milestone_id` returns for
`t` - whatever milestone id the earlier fix versions produced is discarded
(each loop iteration overwrites `gl_milestone_id`).  Second conjunct: when
the loop completes, EVERY listed fix version has a milestone with its exact
title in the final cache (found or newly created in Gitlab) - they exist in
the target even though only the last one is attached to the issue.  Third
conjunct: a title absent from the cache with an empty Gitlab search is
created and cached. -/
theorem C10_only_last_fix_version_assigned (s : String → Option (List Milestone))
    (c : String → Option Milestone) (pid : Nat)
    (hs : ∀ u ms, s u = some ms → ∀ m ∈ ms, m.title = u)
    (hc : ∀ u m, c u = some m → m.title = u) :
    (∀ (vs : List String) (cache : List Milestone) (cur : Option Nat)
       (t : String),
      milestoneLoop s c pid cache cur (vs ++ [t]) =
        match milestoneLoop s c pid cache cur vs with
        | none => none
        | some (ca, _) =>
          match get_milestone_id s c ca pid t with
          | none => none
          | some (ca2, i) => some (ca2, some i)) ∧
    (∀ (vs : List String) (cache : List Milestone) (cur : Option Nat)
       (cache2 : List Milestone) (cur2 : Option Nat),
      milestoneLoop s c pid cache cur vs = some (cache2, cur2) →
      ∀ t ∈ vs, ∃ m ∈ cache2, m.title = t) ∧
    (∀ (cache : List Milestone) (t : String) (m : Milestone),
      cache.find? (fun ms => ms.title = t) = none → s t = some [] →
      c t = some m →
      get_milestone_id s c cache pid t = some (cache ++ [m], m.id)) := by
  refine ⟨?_, ?_, ?_⟩
  · intro vs
    induction vs with
    | nil =>
      intro cache cur t
      rcases hgmi : get_milestone_id s c cache pid t with _ | ⟨ca2, i⟩ <;>
        simp [milestoneLoop, hgmi]
    | cons v ts ih =>
      intro cache cur t
      simp only [List.cons_append, milestoneLoop]
      rcases hgmi : get_milestone_id s c cache pid v with _ | ⟨ca2, i⟩
      · rfl
      · exact ih ca2 (some i) t
  · intro vs
    induction vs with
    | nil =>
      intro cache cur cache2 cur2 _ t ht
      cases ht
    | cons v ts ih =>
      intro cache cur cache2 cur2 h t ht
      unfold milestoneLoop at h
      split at h
      · cases h
      next ca i hgmi =>
        rcases ht with _ | ⟨_, ht⟩
        · obtain ⟨m, hm, hmt, -⟩ :=
            get_milestone_id_title s c cache pid v ca i hs hc hgmi
          obtain ⟨ext, hext⟩ := milestoneLoop_mono s c pid ts ca (some i) cache2 cur2 h
          exact ⟨m, hext ▸ List.mem_append_left _ hm, hmt⟩
        · exact ih ca (some i) cache2 cur2 h t ht
  · intro cache t m hfind hsearch hcreate
    unfold get_milestone_id
    rw [hfind, hsearch, hcreate]

/-- Witness for C10: fix versions `["1.0", "2.0"]` against an empty cache,
an empty Gitlab search and a title-respecting creator: both milestones end
up cached, and the assigned id is the one created for the final "2.0". -/
theorem C10_only_last_fix_version_assigned_witness :
    milestoneLoop (fun _ => some []) (fun u => some ⟨u, u.length⟩) 7 [] none
        ["1.0", "2.0"] =
      some ([⟨"1.0", 3⟩, ⟨"2.0", 3⟩], some 3) ∧
    (∀ t ∈ ["1.0", "2.0"], ∃ m ∈ [(⟨"1.0", 3⟩ : Milestone), ⟨"2.0", 3⟩],
      m.title = t) := by
  constructor
  · rfl
  · exact (C10_only_last_fix_version_assigned (fun _ => some [])
      (fun u => some ⟨u, u.length⟩) 7
      (fun u ms h m hm => by injection h with h; subst h; cases hm)
      (fun u m h => by injection h with h; subst h; rfl)).2.1
      ["1.0", "2.0"] [] none [⟨"1.0", 3⟩, ⟨"2.0", 3⟩] (some 3) rfl
end J2G
